import Mathlib

/-!
Verification of the similarity-retrieval core of a retrieval-augmented
question-answering service (`api.py`).

The development shallowly embeds the Python code:

* Python strings are `List Char`; `str.lower` is modelled on ASCII.
* Python floats are modelled exactly: a cosine-similarity score is kept as a
  pair of rationals `(num, dsq)` meaning the real number `num / Real.sqrt dsq`;
  `dsq = 0` marks the NaN score produced by a zero-norm embedding (`0.0/0.0`).
* CPython `list.sort(key=..., reverse=True)` reverses the list, runs a stable
  ascending sort, and reverses again; the stable ascending sort is modelled by
  insertion sort over the Python `<` comparison on score values (all
  comparisons against a NaN score are false).
* Fallible Python code (`generate_link`, which can raise `AttributeError` or
  `TypeError` on records with missing metadata fields) returns `Except`.
-/

/-! ## Definitions: the slugify pipeline (`api.py`, `slugify`) -/

/-- Python `str.lower`, modelled on ASCII characters. -/
def pyLower (c : Char) : Char :=
  if 'A' ≤ c ∧ c ≤ 'Z' then Char.ofNat (c.toNat + 32) else c

/-- The characters matched by the regex class `\s` (ASCII range). -/
def isPySpace (c : Char) : Bool :=
  c == ' ' || c == '\t' || c == '\n' || c == '\r' || c == '\x0b' || c == '\x0c'

/-- The characters kept by `re.sub(r'[^a-z0-9\s-]', '', text)`:
lower-case letters, digits, whitespace and hyphens. -/
def keepChar (c : Char) : Bool :=
  ('a' ≤ c && c ≤ 'z') || ('0' ≤ c && c ≤ '9') || isPySpace c || c == '-'

/-- A character matched by the regex class `[\s-]` (whitespace or hyphen). -/
def isSep (c : Char) : Bool :=
  isPySpace c || c == '-'

/-- `re.sub(r'[\s-]+', '-', text)`: each maximal run of whitespace and
hyphens is replaced by a single hyphen. -/
def collapseSeps : List Char → List Char
  | [] => []
  | c :: cs =>
    if isSep c then '-' :: collapseSeps (cs.dropWhile isSep)
    else c :: collapseSeps cs
termination_by l => l.length
decreasing_by
  · simp only [List.length_cons]
    exact Nat.lt_succ_of_le ((List.dropWhile_sublist isSep).length_le)
  · simp

/-- Python `str.strip('-')`: remove leading and trailing hyphens. -/
def stripHyphens (l : List Char) : List Char :=
  ((l.dropWhile (· == '-')).reverse.dropWhile (· == '-')).reverse

/-- `slugify` from `api.py`: lower-case, delete characters outside
`[a-z0-9\s-]`, collapse `[\s-]+` runs to a single hyphen, strip hyphens. -/
def slugify (s : List Char) : List Char :=
  stripHyphens (collapseSeps ((s.map pyLower).filter keepChar))

/-- The maximal runs of non-separator characters of a string, in order. -/
def tokens : List Char → List (List Char)
  | [] => []
  | c :: cs =>
    if isSep c then tokens cs
    else (c :: cs.takeWhile (fun x => !isSep x)) ::
      tokens (cs.dropWhile (fun x => !isSep x))
termination_by l => l.length
decreasing_by
  · simp
  · simp only [List.length_cons]
    exact Nat.lt_succ_of_le ((List.dropWhile_sublist _).length_le)

/-- Join a list of tokens with single hyphens between consecutive tokens. -/
def joinTokens : List (List Char) → List Char
  | [] => []
  | [t] => t
  | t :: ts => t ++ '-' :: joinTokens ts

/-- The specification's description of slugification: lower-case, remove every
character outside `[a-z0-9\s-]`, replace each maximal run of whitespace and/or
hyphens with a single hyphen, and remove leading and trailing hyphens.
Replacing every maximal separator run by one hyphen and then trimming the
leading and trailing hyphens leaves exactly the maximal runs of kept
non-separator characters joined by single hyphens, which is how the composite
is written here. -/
def specSlugify (s : List Char) : List Char :=
  joinTokens (tokens ((s.map pyLower).filter keepChar))

/-! ## Definitions: the document store (`embeddings.py` record schema) and the link synthesizer (`api.py`, `generate_link`) -/

/-- The nested `meta` dictionary of a stored record.  Every field is optional:
`dict.get` returns `None` for a missing key.  A record whose `meta` key is
absent behaves like one whose fields are all absent (`meta.get("meta", {})`).
`topic_title`, `topic_id` and `post_number` come from the discourse scraper;
`source` (a file path, possibly with Windows separators) comes from the
markdown scraper. -/
structure DocMeta where
  topic_id : Option Int
  post_number : Option Int
  topic_title : Option (List Char)
  source : Option (List Char)
deriving DecidableEq

/-- A stored embedding record, as produced by `embeddings.py`:
`{"text": chunk, "embedding": vector, "source": tag, "meta": original doc}`. -/
structure Doc where
  text : List Char
  embedding : List ℚ
  source : Option (List Char)
  meta : DocMeta
deriving DecidableEq

/-- The exceptions `generate_link` can actually raise. -/
inductive PyErr where
  /-- `AttributeError`: calling `.lower()` on `None` inside `slugify`. -/
  | attributeError
  /-- `TypeError`: `os.path.basename(None)`. -/
  | typeError
deriving DecidableEq

/-- Python truthiness of an optional integer: `None` and `0` are falsy. -/
def truthy : Option Int → Bool
  | none => false
  | some n => n != 0

/-- Python `str(i)` for an integer. -/
def pyStr (i : Int) : List Char :=
  (toString i).toList

/-- `os.path.basename` (POSIX): everything after the last `'/'`. -/
def basename (p : List Char) : List Char :=
  (p.splitOn '/').getLastD []

/-- Python `rfind`: the index of the last occurrence of `c`, `-1` if absent. -/
def pyRfind (c : Char) (l : List Char) : Int :=
  match l.reverse.findIdx? (· == c) with
  | none => -1
  | some j => (l.length : Int) - 1 - (j : Int)

/-- The first component of `os.path.splitext` (POSIX): the path without its
extension.  The extension starts at the last dot, provided that dot is
preceded (within the final path component) by some non-dot character. -/
def splitextStem (p : List Char) : List Char :=
  let sepIdx := pyRfind '/' p
  let dotIdx := pyRfind '.' p
  if sepIdx < dotIdx then
    let d := dotIdx.toNat
    let s := (sepIdx + 1).toNat
    if ((p.drop s).take (d - s)).any (fun c => c != '.') then p.take d else p
  else p

/-- The fixed fallback citation URL. -/
def defaultUrl : List Char :=
  "https://tds.s-anand.net/#/README".toList

/-- `generate_link` from `api.py`.  It receives a whole stored record and
dispatches on its `source` tag.  `slugify(meta.get("meta", {}).get("topic_title"))`
is evaluated before the `topic_id and post_number` guard, so a discourse
record with no `topic_title` raises `AttributeError`; a course record with no
`meta.source` path raises `TypeError` in `os.path.basename`. -/
def generate_link (d : Doc) : Except PyErr (List Char) :=
  if d.source = some "discourse".toList then
    match d.meta.topic_title with
    | none => .error .attributeError
    | some title =>
      let slug := slugify title
      if truthy d.meta.topic_id && truthy d.meta.post_number then
        .ok ("https://discourse.onlinedegree.iitm.ac.in/t/".toList ++ slug
          ++ '/' :: pyStr (d.meta.topic_id.getD 0)
          ++ '/' :: pyStr (d.meta.post_number.getD 0))
      else .ok defaultUrl
  else if d.source = some "course".toList then
    match d.meta.source with
    | none => .error .typeError
    | some p =>
      let filename := basename p
      let filenameNoExt := splitextStem filename
      let finalFile := (filenameNoExt.splitOn '\\').getLastD []
      .ok ("https://tds.s-anand.net/#/".toList ++ slugify finalFile)
  else .ok defaultUrl

/-! ## Definitions: cosine similarity and ranking (`api.py`, `cosine_similarity`, `find_top_k_similar`) -/

/-- `np.dot` on two vectors. -/
def dot (v w : List ℚ) : ℚ :=
  (List.zipWith (· * ·) v w).sum

/-- The squared Euclidean norm, `np.linalg.norm(v) ** 2`. -/
def normSq (v : List ℚ) : ℚ :=
  dot v v

/-- A similarity score `num / sqrt dsq`, kept in exact form:
`cosine_similarity` returns `np.dot(v, w) / (norm(v) * norm(w))`, and
`norm(v) * norm(w) = sqrt (normSq v * normSq w)`.  When `dsq = 0` the Python
computation is `0.0 / 0.0 = nan` (a zero norm forces a zero dot product). -/
structure Score where
  num : ℚ
  dsq : ℚ
deriving DecidableEq

/-- `cosine_similarity` from `api.py`, in exact form. -/
def cosine_similarity (v w : List ℚ) : Score :=
  ⟨dot v w, normSq v * normSq w⟩

/-- The real value of a score (junk value `0` when `dsq = 0`, where the Python
float is NaN). -/
noncomputable def Score.val (s : Score) : ℝ :=
  (s.num : ℝ) / Real.sqrt ((s.dsq : ℝ))

/-- `np.linalg.norm`, the Euclidean norm of a vector. -/
noncomputable def euclideanNorm (v : List ℚ) : ℝ :=
  Real.sqrt ((normSq v : ℝ))

/-- Python `<` on two score floats.  Every comparison against a NaN score
(`dsq = 0`) is false; otherwise it is the real comparison
`num₁ / sqrt dsq₁ < num₂ / sqrt dsq₂`, decided by sign analysis and
cross-multiplied squares. -/
def scoreLtB (a b : Score) : Bool :=
  if a.dsq = 0 ∨ b.dsq = 0 then false
  else if a.num < 0 ∧ 0 ≤ b.num then true
  else if 0 ≤ a.num ∧ b.num < 0 then false
  else if 0 ≤ a.num ∧ 0 ≤ b.num then
    decide (a.num ^ 2 * b.dsq < b.num ^ 2 * a.dsq)
  else decide (b.num ^ 2 * a.dsq < a.num ^ 2 * b.dsq)

/-- Python `==` on two score floats: false when either is NaN, otherwise the
real comparison `num₁ / sqrt dsq₁ = num₂ / sqrt dsq₂` decided by sign analysis
and cross-multiplied squares. -/
def scoreEqB (a b : Score) : Bool :=
  decide (a.dsq ≠ 0) && decide (b.dsq ≠ 0) &&
    (decide (0 ≤ a.num) == decide (0 ≤ b.num)) &&
    decide (a.num ^ 2 * b.dsq = b.num ^ 2 * a.dsq)

/-- The sort key comparison used by `scores.sort(key=lambda x: x[0], ...)`:
pairs are compared by their score component only. -/
def entryLt (a b : Score × Doc) : Bool :=
  scoreLtB a.1 b.1

/-- Stable insertion of `x` into an already sorted list: `x` is placed before
the first element `y` that is not strictly below `x` (so an element inserted
from earlier in the original list stays before the elements tied with it). -/
def pyInsert (lt : α → α → Bool) (x : α) : List α → List α
  | [] => [x]
  | y :: ys => if lt y x then y :: pyInsert lt x ys else x :: y :: ys

/-- Stable ascending sort by the comparison `lt`.  CPython `list.sort()` is a
stable sort, so on every list whose comparisons are consistent (no NaN key)
it returns exactly this result, and on lists of length at most two it
performs exactly the single comparison `lt l[1] l[0]` that this insertion
sort performs, which also fixes its behaviour on NaN scores there.  On longer
lists containing a NaN key the comparison is inconsistent and CPython's
output is fixed only by its concrete algorithm; that algorithm is modelled
exactly by `pyListSortAsc` below. -/
def pySortAsc (lt : α → α → Bool) : List α → List α
  | [] => []
  | x :: xs => pyInsert lt x (pySortAsc lt xs)

/-- CPython `list.sort(reverse=True)`: reverse the list, run the stable
ascending sort, reverse again. -/
def pySortDesc (lt : α → α → Bool) (l : List α) : List α :=
  (pySortAsc lt l.reverse).reverse

/-- The binary-search loop of CPython's `binarysort` (`listobject.c`): with
the insertion region `[l, r)` over the current prefix `a`, repeatedly probe
`p = l + (r - l)/2`; on `pivot < a[p]` set `r = p`, otherwise `l = p + 1`;
the final `l` is the insertion index.  The interval shrinks at every step, so
`a.length` steps of fuel always suffice (the default value passed to `getD`
is never read while `p < a.length`). -/
def bsLoop (lt : α → α → Bool) (a : List α) (pivot : α) : Nat → Nat → Nat → Nat
  | 0, l, _ => l
  | fuel + 1, l, r =>
    if l < r then
      let p := l + (r - l) / 2
      if lt pivot (a.getD p pivot) then bsLoop lt a pivot fuel l p
      else bsLoop lt a pivot fuel (p + 1) r
    else l

/-- The insertion index computed by CPython's `binarysort` for `pivot` into
the current prefix `a`. -/
def pyBinInsertIdx (lt : α → α → Bool) (a : List α) (pivot : α) : Nat :=
  bsLoop lt a pivot a.length 0 a.length

/-- Insert `x` at position `n` (CPython shifts `a[l:start]` right by one and
writes the pivot at `a[l]`). -/
def insertAtIdx (n : Nat) (x : α) (l : List α) : List α :=
  l.take n ++ x :: l.drop n

/-- CPython `binarysort`: insert the remaining elements one by one, each at
the index found by the binary-search loop over the prefix built so far. -/
def binInsertAll (lt : α → α → Bool) (acc : List α) : List α → List α
  | [] => acc
  | x :: xs => binInsertAll lt (insertAtIdx (pyBinInsertIdx lt acc x) x acc) xs

/-- The ascending part of CPython's `count_run`: extend the run while the
next element is not below its predecessor. -/
def ascRunSplit (lt : α → α → Bool) (prev : α) : List α → (List α × List α)
  | [] => ([], [])
  | x :: xs =>
    if lt x prev then ([], x :: xs)
    else
      let (r, rest) := ascRunSplit lt x xs
      (x :: r, rest)

/-- The descending part of CPython's `count_run`: extend the run while the
next element is strictly below its predecessor. -/
def descRunSplit (lt : α → α → Bool) (prev : α) : List α → (List α × List α)
  | [] => ([], [])
  | x :: xs =>
    if lt x prev then
      let (r, rest) := descRunSplit lt x xs
      (x :: r, rest)
    else ([], x :: xs)

/-- CPython's `list.sort()` algorithm, exactly as `listsort_impl` executes it
on lists shorter than 64 elements (`merge_compute_minrun` then returns the
whole length, so there is a single run and no merging): find the initial run
with `count_run`, reverse it when it is strictly descending, then extend it
to the whole list with `binarysort`.  On comparison-consistent inputs this
agrees with the stable sort `pySortAsc`; on inputs with NaN keys it is the
authoritative model. -/
def pyListSortAsc (lt : α → α → Bool) : List α → List α
  | [] => []
  | [a] => [a]
  | a :: b :: rest =>
    if lt b a then
      let (run, rest2) := descRunSplit lt b rest
      binInsertAll lt ((a :: b :: run).reverse) rest2
    else
      let (run, rest2) := ascRunSplit lt b rest
      binInsertAll lt (a :: b :: run) rest2

/-- CPython `list.sort(reverse=True)` with the exact small-list algorithm:
reverse, sort ascending, reverse again. -/
def pyListSortDesc (lt : α → α → Bool) (l : List α) : List α :=
  (pyListSortAsc lt l.reverse).reverse

/-- The `scores` list built by `find_top_k_similar`: one `(score, doc)` pair
per stored record, in store order. -/
def scoresList (q : List ℚ) (docs : List Doc) : List (Score × Doc) :=
  docs.map (fun d => (cosine_similarity q d.embedding, d))

/-- `find_top_k_similar` from `api.py`: score every record, sort descending by
score (stable), truncate to `k`, and return the records. -/
def find_top_k_similar (q : List ℚ) (docs : List Doc) (k : Nat) : List Doc :=
  ((pySortDesc entryLt (scoresList q docs)).take k).map Prod.snd

/-- `find_top_k_similar` with `scores.sort(key=lambda x: x[0], reverse=True)`
modelled by the exact CPython small-list algorithm `pyListSortDesc`.  For
NaN-free stores this coincides with `find_top_k_similar`; it is needed to
settle how CPython actually orders a store that contains a NaN-scored
record, where the comparison is inconsistent and stability arguments do not
apply. -/
def find_top_k_similar_cpython (q : List ℚ) (docs : List Doc) (k : Nat) : List Doc :=
  ((pyListSortDesc entryLt (scoresList q docs)).take k).map Prod.snd

/-! ## Definitions: citation-list construction (`api.py`, `ask_question`, step 6) -/

/-- A `{url, text}` citation entry. -/
structure Link where
  url : List Char
  text : List Char
deriving DecidableEq

/-- The display text of a ranked-result citation:
`doc["text"][:80] + ("..." if len(doc["text"]) > 80 else "")`. -/
def citeText (d : Doc) : List Char :=
  d.text.take 80 ++ (if 80 < d.text.length then "...".toList else [])

/-- One iteration of the citation loop: synthesize the record's URL and append
a new entry unless the URL is already present. -/
def addDocLink (links : List Link) (d : Doc) : Except PyErr (List Link) :=
  match generate_link d with
  | .error e => .error e
  | .ok url =>
    if (links.map Link.url).contains url then .ok links
    else .ok (links ++ [⟨url, citeText d⟩])

/-- The citation loop of `ask_question` step 6 started from a given list. -/
def buildLinksFrom (init : List Link) (docs : List Doc) : Except PyErr (List Link) :=
  docs.foldlM addDocLink init

/-- The citation list built from the ranked results (no user link supplied, so
the loop starts from the empty list). -/
def buildLinks (docs : List Doc) : Except PyErr (List Link) :=
  buildLinksFrom [] docs

instance : DecidableEq (Except PyErr (List Char)) := fun a b =>
  match a, b with
  | .error x, .error y =>
    if h : x = y then .isTrue (by rw [h]) else .isFalse (fun hc => h (by cases hc; rfl))
  | .error _, .ok _ => .isFalse (fun hc => by cases hc)
  | .ok _, .error _ => .isFalse (fun hc => by cases hc)
  | .ok x, .ok y =>
    if h : x = y then .isTrue (by rw [h]) else .isFalse (fun hc => h (by cases hc; rfl))

/-! ## Definitions: state-passing forms (for the no-mutation claim) -/

/-- `find_top_k_similar` as a computation over an explicit store state: the
code only reads the store (building its own local `scores` list and sorting
that) and performs no write. -/
def find_top_k_similar_st (q : List ℚ) (k : Nat) : StateM (List Doc) (List Doc) := do
  let docs ← get
  pure (find_top_k_similar q docs k)

/-- `generate_link` as a computation over an explicit record state: the code
only reads the record's fields (`dict.get`) and performs no write. -/
def generate_link_st : StateM Doc (Except PyErr (List Char)) := do
  let d ← get
  pure (generate_link d)

/-- A stored record whose embedding has Euclidean norm zero. -/
def docZero : Doc :=
  ⟨"A".toList, [0, 0], some "course".toList, ⟨none, none, none, some "week1/intro.md".toList⟩⟩

/-- A discourse record whose embedding is the first unit vector. -/
def docUnit : Doc :=
  ⟨"B".toList, [1, 0], some "discourse".toList, ⟨some 5, some 2, some "Hi There!".toList, none⟩⟩

/-- A record parallel to `docUnit`'s embedding but of double magnitude, so both
receive cosine score `1` against the query `[1, 0]`. -/
def docTwo : Doc :=
  ⟨"C".toList, [2, 0], some "course".toList, ⟨none, none, none, some "week2/extra.md".toList⟩⟩

/-- A record orthogonal to the query `[1, 0]`. -/
def docOrtho : Doc :=
  ⟨"D".toList, [0, 1], some "course".toList, ⟨none, none, none, some "week3/more.md".toList⟩⟩

/-- A course record whose `meta.source` path has the same base name as
`docZero`'s, so both synthesize the same citation URL. -/
def docIntroDup : Doc :=
  ⟨"E".toList, [3, 0], some "course".toList, ⟨none, none, none, some "week4/intro.md".toList⟩⟩

/-- A discourse record whose text is 85 characters long, to exercise the
80-character truncation with ellipsis. -/
def docLong : Doc :=
  ⟨List.replicate 85 'a', [1, 1], some "discourse".toList, ⟨some 1, some 1, some "T".toList, none⟩⟩

/-- Seven pairwise-distinct records for the stability counterexample: against
the query `[1, 0]`, records 0, 1, 3, 4, 5 score `0.0`, record 2 scores NaN
(zero norm), record 6 scores `1.0`. -/
def c4r0 : Doc := ⟨"r0".toList, [0, 1], none, ⟨none, none, none, none⟩⟩

/-- Second record with score `0.0` (see `c4r0`). -/
def c4r1 : Doc := ⟨"r1".toList, [0, 1], none, ⟨none, none, none, none⟩⟩

/-- The zero-norm (NaN-scored) record of the stability counterexample. -/
def c4r2 : Doc := ⟨"r2".toList, [0, 0], none, ⟨none, none, none, none⟩⟩

/-- Third record with score `0.0` (see `c4r0`). -/
def c4r3 : Doc := ⟨"r3".toList, [0, 1], none, ⟨none, none, none, none⟩⟩

/-- Fourth record with score `0.0` (see `c4r0`). -/
def c4r4 : Doc := ⟨"r4".toList, [0, 1], none, ⟨none, none, none, none⟩⟩

/-- Fifth record with score `0.0` (see `c4r0`). -/
def c4r5 : Doc := ⟨"r5".toList, [0, 1], none, ⟨none, none, none, none⟩⟩

/-- The record with score `1.0` of the stability counterexample. -/
def c4r6 : Doc := ⟨"r6".toList, [1, 0], none, ⟨none, none, none, none⟩⟩

/-- The seven-record store of the stability counterexample. -/
def storeC4 : List Doc :=
  [c4r0, c4r1, c4r2, c4r3, c4r4, c4r5, c4r6]

/-! ## Definitions: predicates and concrete records for the claims -/

/-- The stability property asserted by the claim, at the exact CPython model:
whenever two store records receive exactly equal (hence defined) similarity
scores, their occurrences in the ranked output keep the store order. -/
def rankedTiesKeepStoreOrder (q : List ℚ) (docs : List Doc) (k : Nat) : Prop :=
  ∀ i j : Fin docs.length, (i : Nat) < (j : Nat) →
    scoreEqB (cosine_similarity q (docs.get i).embedding)
      (cosine_similarity q (docs.get j).embedding) = true →
    ∀ i' j' : Fin (find_top_k_similar_cpython q docs k).length,
      (find_top_k_similar_cpython q docs k).get i' = docs.get i →
      (find_top_k_similar_cpython q docs k).get j' = docs.get j →
      (i' : Nat) < (j' : Nat)

/-- The property asserted by the specification's edge-case sentence: in the
ranked output, every record whose embedding has norm zero (NaN score) comes
after every record with a defined score. -/
def nanRecordsLast (q : List ℚ) (docs : List Doc) (k : Nat) : Prop :=
  ∀ i j : Fin (find_top_k_similar q docs k).length,
    normSq ((find_top_k_similar q docs k).get i).embedding = 0 →
    normSq ((find_top_k_similar q docs k).get j).embedding ≠ 0 →
    (j : Nat) < (i : Nat)

/-! ## Facts about the slugify pipeline -/

theorem isSep_hyphen : isSep '-' = true := by
  decide

theorem nonsep_ne_hyphen {x : Char} (h : isSep x = false) : (x == '-') = false := by
  cases hx : x == '-'
  · rfl
  · rw [show x = '-' from by simpa using hx] at h
    rw [isSep_hyphen] at h
    cases h

theorem dropWhile_head_false {p : Char → Bool} {l : List Char} {c : Char} {cs : List Char}
    (h : l.dropWhile p = c :: cs) : p c = false := by
  induction l with
  | nil => simp [List.dropWhile] at h
  | cons x xs ih =>
    by_cases hx : p x
    · rw [List.dropWhile_cons_of_pos hx] at h
      exact ih h
    · rw [List.dropWhile_cons_of_neg hx] at h
      cases h
      simpa using hx

theorem dropWhile_cons_false {p : Char → Bool} {c : Char} (cs : List Char)
    (h : p c = false) : (c :: cs).dropWhile p = c :: cs :=
  List.dropWhile_cons_of_neg (by simp [h])

theorem dropWhile_all_false {p : Char → Bool} {l : List Char}
    (h : ∀ x ∈ l, p x = false) : l.dropWhile p = l := by
  cases l with
  | nil => rfl
  | cons c cs => exact dropWhile_cons_false cs (h c (List.mem_cons_self c cs))

theorem dropWhile_append_of_mem {p : Char → Bool} {l : List Char} (r : List Char)
    (h : ∃ x ∈ l, p x = false) :
    (l ++ r).dropWhile p = l.dropWhile p ++ r := by
  induction l with
  | nil =>
    rcases h with ⟨x, hx, _⟩
    simp at hx
  | cons c cs ih =>
    by_cases hc : p c
    · rcases h with ⟨x, hx, hpx⟩
      rcases List.mem_cons.mp hx with rfl | hx
      · rw [hpx] at hc
        cases hc
      · rw [List.cons_append, List.dropWhile_cons_of_pos hc,
          List.dropWhile_cons_of_pos hc]
        exact ih ⟨x, hx, hpx⟩
    · rw [List.cons_append, List.dropWhile_cons_of_neg hc, List.dropWhile_cons_of_neg hc]
      simp

theorem tokens_dropWhile_sep : ∀ l : List Char, tokens (l.dropWhile isSep) = tokens l := by
  intro l
  induction l with
  | nil => rfl
  | cons c cs ih =>
    by_cases h : isSep c
    · rw [List.dropWhile_cons_of_pos h, ih, tokens, if_pos h]
    · rw [List.dropWhile_cons_of_neg h]

theorem collapseSeps_nonsep_run {w : List Char} (r : List Char)
    (h : ∀ x ∈ w, isSep x = false) :
    collapseSeps (w ++ r) = w ++ collapseSeps r := by
  induction w with
  | nil => rfl
  | cons c cs ih =>
    rw [List.cons_append, collapseSeps, if_neg (by simp [h c (List.mem_cons_self c cs)])]
    rw [ih (fun x hx => h x (List.mem_cons_of_mem c hx))]
    rfl

theorem stripHyphens_nil : stripHyphens [] = [] := by
  rfl

theorem stripHyphens_hyphen_cons {v : List Char}
    (h : v.dropWhile (· == '-') = v) :
    stripHyphens ('-' :: v) = stripHyphens v := by
  unfold stripHyphens
  rw [List.dropWhile_cons_of_pos (by simp), h]

theorem stripHyphens_no_hyphen {l : List Char}
    (h : ∀ x ∈ l, (x == '-') = false) :
    stripHyphens l = l := by
  unfold stripHyphens
  rw [dropWhile_all_false h, dropWhile_all_false (fun x hx => h x (List.mem_reverse.mp hx)),
    List.reverse_reverse]

theorem stripHyphens_append_hyphen {c : Char} {w : List Char}
    (h : ∀ x ∈ c :: w, (x == '-') = false) :
    stripHyphens ((c :: w) ++ ['-']) = c :: w := by
  unfold stripHyphens
  have h1 : ((c :: w) ++ ['-']).dropWhile (· == '-') = (c :: w) ++ ['-'] := by
    rw [List.cons_append]
    exact dropWhile_cons_false _ (h c (List.mem_cons_self c w))
  rw [h1]
  have h2 : ((c :: w) ++ ['-']).reverse = '-' :: (c :: w).reverse := by
    simp
  rw [h2]
  have h3 : ('-' :: (c :: w).reverse).dropWhile (· == '-')
      = (c :: w).reverse.dropWhile (· == '-') :=
    List.dropWhile_cons_of_pos (by simp)
  rw [h3, dropWhile_all_false (fun x hx => h x (List.mem_reverse.mp hx)),
    List.reverse_reverse]

theorem stripHyphens_append_mid {c : Char} {w u : List Char} {d : Char} {us : List Char}
    (hcw : ∀ x ∈ c :: w, (x == '-') = false)
    (hu : u = d :: us) (hd : (d == '-') = false) :
    stripHyphens ((c :: w) ++ '-' :: u) = (c :: w) ++ '-' :: stripHyphens u := by
  unfold stripHyphens
  have h1 : ((c :: w) ++ '-' :: u).dropWhile (· == '-') = (c :: w) ++ '-' :: u := by
    rw [List.cons_append]
    exact dropWhile_cons_false _ (hcw c (List.mem_cons_self c w))
  have h1u : u.dropWhile (· == '-') = u := by
    rw [hu]
    exact dropWhile_cons_false _ hd
  rw [h1, h1u]
  have h2 : ((c :: w) ++ '-' :: u).reverse
      = u.reverse ++ ('-' :: (c :: w).reverse) := by
    simp
  rw [h2]
  have hmem : ∃ x ∈ u.reverse, (x == '-') = false := by
    refine ⟨d, ?_, hd⟩
    rw [hu]
    simp
  rw [dropWhile_append_of_mem _ hmem, List.reverse_append]
  simp

theorem joinTokens_cons {t : List Char} {ts : List (List Char)} (h : ts ≠ []) :
    joinTokens (t :: ts) = t ++ '-' :: joinTokens ts := by
  cases ts with
  | nil => exact absurd rfl h
  | cons a as => rfl

theorem mem_takeWhile_pred {p : Char → Bool} {l : List Char} {x : Char}
    (h : x ∈ l.takeWhile p) : p x = true := by
  induction l with
  | nil => simp [List.takeWhile] at h
  | cons c cs ih =>
    by_cases hc : p c
    · rw [List.takeWhile_cons_of_pos hc] at h
      rcases List.mem_cons.mp h with rfl | h
      · exact hc
      · exact ih h
    · rw [List.takeWhile_cons_of_neg hc] at h
      simp at h

theorem stripHyphens_collapseSeps_bounded (n : Nat) :
    ∀ t : List Char, t.length ≤ n → stripHyphens (collapseSeps t) = joinTokens (tokens t) := by
  induction n with
  | zero =>
    intro t ht
    rw [List.length_eq_zero.mp (Nat.le_zero.mp ht)]
    rw [collapseSeps, tokens]
    rfl
  | succ n ihn =>
    intro t ht
    cases t with
  | nil =>
    rw [collapseSeps, tokens]
    rfl
  | cons c cs =>
    by_cases h : isSep c
    · -- a leading separator run contributes one leading hyphen, stripped away
      rw [collapseSeps, if_pos h, tokens, if_pos h]
      have hrec := ihn (cs.dropWhile isSep)
        (le_trans ((List.dropWhile_sublist isSep).length_le) (by simpa using Nat.le_of_succ_le_succ ht))
      have hfront : (collapseSeps (cs.dropWhile isSep)).dropWhile (· == '-')
          = collapseSeps (cs.dropWhile isSep) := by
        cases hv : cs.dropWhile isSep with
        | nil => simp [collapseSeps]
        | cons d ds =>
          have hd : isSep d = false := dropWhile_head_false hv
          rw [collapseSeps, if_neg (by simp [hd])]
          exact dropWhile_cons_false _ (nonsep_ne_hyphen hd)
      rw [stripHyphens_hyphen_cons hfront, hrec, tokens_dropWhile_sep]
    · -- a leading non-separator run is the first token
      have hw : ∀ x ∈ cs.takeWhile (fun x => !isSep x), isSep x = false := by
        intro x hx
        have := mem_takeWhile_pred hx
        simpa using this
      have hcw : ∀ x ∈ c :: cs.takeWhile (fun x => !isSep x), (x == '-') = false := by
        intro x hx
        rcases List.mem_cons.mp hx with rfl | hx
        · exact nonsep_ne_hyphen (by simpa using h)
        · exact nonsep_ne_hyphen (hw x hx)
      have hsplit : cs = cs.takeWhile (fun x => !isSep x) ++ cs.dropWhile (fun x => !isSep x) :=
        (List.takeWhile_append_dropWhile _ _).symm
      rw [collapseSeps, if_neg (by simp [h]), tokens, if_neg (by simp [h])]
      rw [show collapseSeps cs
            = collapseSeps (cs.takeWhile (fun x => !isSep x) ++ cs.dropWhile (fun x => !isSep x))
          from by rw [← hsplit]]
      rw [collapseSeps_nonsep_run _ hw]
      cases hrest : cs.dropWhile (fun x => !isSep x) with
      | nil =>
        rw [show collapseSeps [] = [] from by rw [collapseSeps], List.append_nil, tokens]
        exact stripHyphens_no_hyphen hcw
      | cons s ss =>
        have hs : isSep s = true := by
          have := dropWhile_head_false hrest
          simpa using this
        rw [collapseSeps, if_pos hs]
        cases hv : ss.dropWhile isSep with
        | nil =>
          rw [show collapseSeps [] = [] from by rw [collapseSeps]]
          rw [tokens, if_pos hs, ← tokens_dropWhile_sep ss, hv]
          rw [show tokens [] = [] from by rw [tokens]]
          have := stripHyphens_append_hyphen hcw
          simpa using this
        | cons d ds =>
          have hd : isSep d = false := dropWhile_head_false hv
          have hlen : (d :: ds).length ≤ n := by
            have h1 : (ss.dropWhile isSep).length ≤ ss.length := (List.dropWhile_sublist isSep).length_le
            have h2 : (d :: ds).length ≤ ss.length := by
              rw [← hv]
              exact h1
            have h3 : cs.length
                = (cs.takeWhile (fun x => !isSep x)).length + (s :: ss).length := by
              conv_lhs => rw [hsplit]
              rw [List.length_append, hrest]
            have h4 : cs.length ≤ n := by
              simpa using Nat.le_of_succ_le_succ ht
            simp only [List.length_cons] at h2 h3 ⊢
            omega
          have hrec := ihn (d :: ds) hlen
          have hcollv : collapseSeps (d :: ds) = d :: collapseSeps ds := by
            rw [collapseSeps, if_neg (by simp [hd])]
          have htokv : tokens (d :: ds) ≠ [] := by
            rw [tokens, if_neg (by simp [hd])]
            simp
          rw [← List.cons_append]
          rw [stripHyphens_append_mid hcw hcollv (nonsep_ne_hyphen hd)]
          rw [hrec]
          have htokss : tokens (s :: ss) = tokens (d :: ds) := by
            rw [tokens, if_pos hs, ← tokens_dropWhile_sep ss, hv]
          rw [htokss, joinTokens_cons htokv]

/-- `re.sub(r'[\s-]+', '-', t).strip('-')` turns a string into its maximal
non-separator runs joined by single hyphens. -/
theorem stripHyphens_collapseSeps (t : List Char) :
    stripHyphens (collapseSeps t) = joinTokens (tokens t) :=
  stripHyphens_collapseSeps_bounded t.length t le_rfl

/-- `slugify` agrees with the specification's description of slugification. -/
theorem slugify_eq_specSlugify_all (s : List Char) : slugify s = specSlugify s := by
  unfold slugify specSlugify
  exact stripHyphens_collapseSeps _

/-! ## Idempotence of the slugify pipeline -/

theorem keepChar_pyLower_fix {c : Char} (h : keepChar c = true) : pyLower c = c := by
  unfold pyLower
  rw [if_neg]
  rintro ⟨hA, hZ⟩
  simp only [keepChar, Bool.or_eq_true, Bool.and_eq_true, decide_eq_true_eq,
    beq_iff_eq] at h
  rcases h with ((⟨h1, _⟩ | ⟨_, h2⟩) | hs) | rfl
  · rw [Char.le_def, UInt32.le_def, BitVec.le_def] at h1 hZ
    simp at h1 hZ
    omega
  · rw [Char.le_def, UInt32.le_def, BitVec.le_def] at h2 hA
    simp at h2 hA
    omega
  · simp only [isPySpace, Bool.or_eq_true, beq_iff_eq] at hs
    rcases hs with ((((rfl | rfl) | rfl) | rfl) | rfl) | rfl <;> exact absurd hA (by decide)
  · exact absurd hA (by decide)

theorem hyphen_keepChar : keepChar '-' = true := by
  decide

theorem hyphen_pyLower : pyLower '-' = '-' := by
  decide

theorem takeWhile_all_true {p : Char → Bool} {l : List Char}
    (h : ∀ x ∈ l, p x = true) : l.takeWhile p = l := by
  induction l with
  | nil => rfl
  | cons c cs ih =>
    rw [List.takeWhile_cons_of_pos (h c (List.mem_cons_self c cs)),
      ih (fun x hx => h x (List.mem_cons_of_mem c hx))]

theorem dropWhile_all_true {p : Char → Bool} {l : List Char}
    (h : ∀ x ∈ l, p x = true) : l.dropWhile p = [] := by
  induction l with
  | nil => rfl
  | cons c cs ih =>
    rw [List.dropWhile_cons_of_pos (h c (List.mem_cons_self c cs)),
      ih (fun x hx => h x (List.mem_cons_of_mem c hx))]

theorem takeWhile_append_stop {p : Char → Bool} {w : List Char} {y : Char} (r : List Char)
    (hw : ∀ x ∈ w, p x = true) (hy : p y = false) :
    (w ++ y :: r).takeWhile p = w := by
  induction w with
  | nil =>
    rw [List.nil_append]
    exact List.takeWhile_cons_of_neg (by simp [hy])
  | cons c cs ih =>
    rw [List.cons_append, List.takeWhile_cons_of_pos (hw c (List.mem_cons_self c cs)),
      ih (fun x hx => hw x (List.mem_cons_of_mem c hx))]

theorem dropWhile_append_stop {p : Char → Bool} {w : List Char} {y : Char} (r : List Char)
    (hw : ∀ x ∈ w, p x = true) (hy : p y = false) :
    (w ++ y :: r).dropWhile p = y :: r := by
  induction w with
  | nil =>
    rw [List.nil_append]
    exact List.dropWhile_cons_of_neg (by simp [hy])
  | cons c cs ih =>
    rw [List.cons_append, List.dropWhile_cons_of_pos (hw c (List.mem_cons_self c cs)),
      ih (fun x hx => hw x (List.mem_cons_of_mem c hx))]

theorem mem_joinTokens {x : Char} :
    ∀ {ts : List (List Char)}, x ∈ joinTokens ts → x = '-' ∨ ∃ t ∈ ts, x ∈ t := by
  intro ts
  induction ts with
  | nil =>
    intro h
    rw [joinTokens] at h
    simp at h
  | cons t rest ih =>
    intro h
    cases rest with
    | nil =>
      rw [joinTokens] at h
      exact Or.inr ⟨t, by simp, h⟩
    | cons t2 rest2 =>
      rw [joinTokens_cons (by simp)] at h
      rcases List.mem_append.mp h with h1 | h2
      · exact Or.inr ⟨t, by simp, h1⟩
      · rcases List.mem_cons.mp h2 with rfl | h3
        · exact Or.inl rfl
        · rcases ih h3 with h4 | ⟨u, hu, hxu⟩
          · exact Or.inl h4
          · exact Or.inr ⟨u, List.mem_cons_of_mem t hu, hxu⟩

theorem mem_of_mem_takeWhile {p : Char → Bool} {l : List Char} {x : Char}
    (h : x ∈ l.takeWhile p) : x ∈ l := by
  induction l with
  | nil => simp [List.takeWhile] at h
  | cons c cs ih =>
    by_cases hc : p c
    · rw [List.takeWhile_cons_of_pos hc] at h
      rcases List.mem_cons.mp h with rfl | h2
      · exact List.mem_cons_self x cs
      · exact List.mem_cons_of_mem c (ih h2)
    · rw [List.takeWhile_cons_of_neg hc] at h
      simp at h

theorem mem_of_mem_dropWhile {p : Char → Bool} {l : List Char} {x : Char}
    (h : x ∈ l.dropWhile p) : x ∈ l := by
  induction l with
  | nil => simp [List.dropWhile] at h
  | cons c cs ih =>
    by_cases hc : p c
    · rw [List.dropWhile_cons_of_pos hc] at h
      exact List.mem_cons_of_mem c (ih h)
    · rwa [List.dropWhile_cons_of_neg hc] at h

theorem tokens_props_bounded (n : Nat) :
    ∀ l : List Char, l.length ≤ n → ∀ tok ∈ tokens l,
      tok ≠ [] ∧ ∀ c ∈ tok, isSep c = false ∧ c ∈ l := by
  induction n with
  | zero =>
    intro l hl tok htok
    rw [List.length_eq_zero.mp (Nat.le_zero.mp hl)] at htok
    rw [tokens] at htok
    simp at htok
  | succ n ihn =>
    intro l hl tok htok
    cases l with
    | nil =>
      rw [tokens] at htok
      simp at htok
    | cons c cs =>
      by_cases h : isSep c
      · rw [tokens, if_pos h] at htok
        have hrec := ihn cs (by simpa using Nat.le_of_succ_le_succ hl) tok htok
        exact ⟨hrec.1, fun x hx => ⟨(hrec.2 x hx).1, List.mem_cons_of_mem c (hrec.2 x hx).2⟩⟩
      · rw [tokens, if_neg h] at htok
        rcases List.mem_cons.mp htok with rfl | htok2
        · refine ⟨by simp, ?_⟩
          intro x hx
          rcases List.mem_cons.mp hx with rfl | hx2
          · exact ⟨by simpa using h, List.mem_cons_self x cs⟩
          · have hp := mem_takeWhile_pred hx2
            refine ⟨by simpa using hp, List.mem_cons_of_mem c ?_⟩
            exact mem_of_mem_takeWhile hx2
        · have hlen : (cs.dropWhile (fun x => !isSep x)).length ≤ n :=
            le_trans ((List.dropWhile_sublist _).length_le) (by simpa using Nat.le_of_succ_le_succ hl)
          have hrec := ihn _ hlen tok htok2
          refine ⟨hrec.1, fun x hx => ⟨(hrec.2 x hx).1, ?_⟩⟩
          have := (hrec.2 x hx).2
          exact List.mem_cons_of_mem c (mem_of_mem_dropWhile this)

theorem tokens_props {l : List Char} {tok : List Char} (h : tok ∈ tokens l) :
    tok ≠ [] ∧ ∀ c ∈ tok, isSep c = false ∧ c ∈ l :=
  tokens_props_bounded l.length l le_rfl tok h

theorem tokens_joinTokens :
    ∀ ts : List (List Char),
      (∀ tok ∈ ts, tok ≠ [] ∧ ∀ c ∈ tok, isSep c = false) →
      tokens (joinTokens ts) = ts := by
  intro ts
  induction ts with
  | nil =>
    intro _
    rw [joinTokens, tokens]
  | cons t rest ih =>
    intro h
    rcases h t (List.mem_cons_self t rest) with ⟨hne, hchars⟩
    cases ht : t with
    | nil => exact absurd ht hne
    | cons c w =>
      subst ht
      have hc : isSep c = false := hchars c (List.mem_cons_self c w)
      have hw : ∀ x ∈ w, (!isSep x) = true := by
        intro x hx
        simp [hchars x (List.mem_cons_of_mem c hx)]
      cases rest with
      | nil =>
        rw [joinTokens, tokens, if_neg (by simp [hc]),
          takeWhile_all_true hw, dropWhile_all_true hw, tokens]
      | cons t2 rest2 =>
        rw [joinTokens_cons (by simp), List.cons_append, tokens, if_neg (by simp [hc]),
          takeWhile_append_stop _ hw (by simp [isSep_hyphen]),
          dropWhile_append_stop _ hw (by simp [isSep_hyphen])]
        rw [show tokens ('-' :: joinTokens (t2 :: rest2)) = tokens (joinTokens (t2 :: rest2))
            from by rw [tokens, if_pos isSep_hyphen]]
        rw [ih (fun tok htok => h tok (List.mem_cons_of_mem _ htok))]

theorem map_fix {f : Char → Char} {l : List Char} (h : ∀ x ∈ l, f x = x) :
    l.map f = l := by
  induction l with
  | nil => rfl
  | cons c cs ih =>
    rw [List.map_cons, h c (List.mem_cons_self c cs),
      ih (fun x hx => h x (List.mem_cons_of_mem c hx))]

theorem filter_all_keep {p : Char → Bool} {l : List Char} (h : ∀ x ∈ l, p x = true) :
    l.filter p = l := by
  induction l with
  | nil => rfl
  | cons c cs ih =>
    rw [List.filter_cons_of_pos (h c (List.mem_cons_self c cs)),
      ih (fun x hx => h x (List.mem_cons_of_mem c hx))]

/-- Every character of a slugified string is kept by the filter class. -/
theorem slugify_chars {s : List Char} {c : Char} (h : c ∈ slugify s) :
    keepChar c = true := by
  unfold slugify at h
  rw [stripHyphens_collapseSeps] at h
  rcases mem_joinTokens h with rfl | ⟨tok, htok, hc⟩
  · exact hyphen_keepChar
  · have := (tokens_props htok).2 c hc
    exact List.mem_filter.mp this.2 |>.2

/-- `slugify` is idempotent. -/
theorem slugify_idempotent_all (s : List Char) : slugify (slugify s) = slugify s := by
  have hfix : (slugify s).map pyLower = slugify s :=
    map_fix (fun x hx => keepChar_pyLower_fix (slugify_chars hx))
  have hkeep : (slugify s).filter keepChar = slugify s :=
    filter_all_keep (fun x hx => slugify_chars hx)
  have htoks : ∀ tok ∈ tokens ((s.map pyLower).filter keepChar),
      tok ≠ [] ∧ ∀ c ∈ tok, isSep c = false := by
    intro tok htok
    exact ⟨(tokens_props htok).1, fun c hc => ((tokens_props htok).2 c hc).1⟩
  have hs : slugify s = joinTokens (tokens ((s.map pyLower).filter keepChar)) := by
    unfold slugify
    exact stripHyphens_collapseSeps _
  conv_lhs => rw [slugify, hfix, hkeep]
  rw [stripHyphens_collapseSeps, hs, tokens_joinTokens _ htoks]

/-! ## Facts about the citation loop -/

theorem buildLinksFrom_nil (init : List Link) : buildLinksFrom init [] = .ok init :=
  rfl

theorem ok_bind {α β : Type} (a : α) (f : α → Except PyErr β) :
    (Except.ok a).bind f = f a :=
  rfl

theorem addDocLink_err {init : List Link} {d : Doc} {e : PyErr}
    (hgl : generate_link d = .error e) : addDocLink init d = .error e := by
  unfold addDocLink
  rw [hgl]

theorem addDocLink_ok {init : List Link} {d : Doc} {u : List Char}
    (hgl : generate_link d = .ok u) :
    addDocLink init d = if (init.map Link.url).contains u then .ok init
      else .ok (init ++ [⟨u, citeText d⟩]) := by
  unfold addDocLink
  rw [hgl]

theorem buildLinksFrom_cons (init : List Link) (d : Doc) (ds : List Doc) :
    buildLinksFrom init (d :: ds)
      = (addDocLink init d).bind (fun acc => buildLinksFrom acc ds) := by
  unfold buildLinksFrom
  rw [List.foldlM_cons]
  cases addDocLink init d <;> rfl

theorem contains_true_iff {l : List (List Char)} {u : List Char} :
    l.contains u = true ↔ u ∈ l := by
  constructor
  · intro h
    simpa using h
  · intro h
    simpa using h

theorem buildLinksFrom_nodup :
    ∀ (docs : List Doc) (init links : List Link),
      (init.map Link.url).Nodup → buildLinksFrom init docs = .ok links →
      (links.map Link.url).Nodup := by
  intro docs
  induction docs with
  | nil =>
    intro init links hn h
    rw [buildLinksFrom_nil] at h
    cases h
    exact hn
  | cons d ds ih =>
    intro init links hn h
    rw [buildLinksFrom_cons] at h
    cases hgl : generate_link d with
    | error e =>
      rw [addDocLink_err hgl] at h
      cases h
    | ok u =>
      rw [addDocLink_ok hgl] at h
      by_cases hc : (init.map Link.url).contains u = true
      · rw [if_pos hc, ok_bind] at h
        exact ih init links hn h
      · rw [if_neg hc, ok_bind] at h
        refine ih _ links ?_ h
        rw [List.map_append]
        simp only [List.map_cons, List.map_nil]
        rw [List.nodup_append]
        refine ⟨hn, List.nodup_singleton u, ?_⟩
        intro a ha hb
        rcases List.mem_singleton.mp hb with rfl
        exact hc (contains_true_iff.mpr ha)

theorem buildLinksFrom_mem_url :
    ∀ (docs : List Doc) (init links : List Link),
      buildLinksFrom init docs = .ok links →
      ∀ u : List Char, u ∈ links.map Link.url ↔
        (u ∈ init.map Link.url ∨ ∃ d ∈ docs, generate_link d = .ok u) := by
  intro docs
  induction docs with
  | nil =>
    intro init links h u
    rw [buildLinksFrom_nil] at h
    cases h
    simp
  | cons d ds ih =>
    intro init links h u
    rw [buildLinksFrom_cons] at h
    cases hgl : generate_link d with
    | error e =>
      rw [addDocLink_err hgl] at h
      cases h
    | ok v =>
      rw [addDocLink_ok hgl] at h
      by_cases hc : (init.map Link.url).contains v = true
      · rw [if_pos hc, ok_bind] at h
        rw [ih init links h u]
        constructor
        · rintro (hu | ⟨e, he, hgle⟩)
          · exact Or.inl hu
          · exact Or.inr ⟨e, List.mem_cons_of_mem d he, hgle⟩
        · rintro (hu | ⟨e, he, hgle⟩)
          · exact Or.inl hu
          · rcases List.mem_cons.mp he with rfl | he2
            · rw [hgl] at hgle
              cases hgle
              exact Or.inl (contains_true_iff.mp hc)
            · exact Or.inr ⟨e, he2, hgle⟩
      · rw [if_neg hc, ok_bind] at h
        rw [ih _ links h u]
        rw [List.map_append]
        simp only [List.map_cons, List.map_nil, List.mem_append, List.mem_singleton]
        constructor
        · rintro ((hu | rfl) | ⟨e, he, hgle⟩)
          · exact Or.inl hu
          · exact Or.inr ⟨d, List.mem_cons_self d ds, hgl⟩
          · exact Or.inr ⟨e, List.mem_cons_of_mem d he, hgle⟩
        · rintro (hu | ⟨e, he, hgle⟩)
          · exact Or.inl (Or.inl hu)
          · rcases List.mem_cons.mp he with rfl | he2
            · rw [hgl] at hgle
              cases hgle
              exact Or.inl (Or.inr rfl)
            · exact Or.inr ⟨e, he2, hgle⟩

theorem buildLinksFrom_text :
    ∀ (docs : List Doc) (init links : List Link),
      buildLinksFrom init docs = .ok links →
      ∀ l ∈ links, l ∈ init ∨
        (l.url ∉ init.map Link.url ∧
          ∃ d, docs.find? (fun e => decide (generate_link e = .ok l.url)) = some d
            ∧ l.text = citeText d) := by
  intro docs
  induction docs with
  | nil =>
    intro init links h l hl
    rw [buildLinksFrom_nil] at h
    cases h
    exact Or.inl hl
  | cons d ds ih =>
    intro init links h l hl
    rw [buildLinksFrom_cons] at h
    cases hgl : generate_link d with
    | error e =>
      rw [addDocLink_err hgl] at h
      cases h
    | ok v =>
      rw [addDocLink_ok hgl] at h
      by_cases hc : (init.map Link.url).contains v = true
      · rw [if_pos hc, ok_bind] at h
        rcases ih init links h l hl with hinit | ⟨hnot, e, hfind, htext⟩
        · exact Or.inl hinit
        · refine Or.inr ⟨hnot, e, ?_, htext⟩
          rw [List.find?_cons_of_neg _ (by
            simp only [decide_eq_true_eq, hgl]
            intro hcontra
            injection hcontra with h2
            exact hnot (h2 ▸ contains_true_iff.mp hc)), hfind]
      · rw [if_neg hc, ok_bind] at h
        rcases ih _ links h l hl with hinit | ⟨hnot, e, hfind, htext⟩
        · rcases List.mem_append.mp hinit with hinit2 | hnew
          · exact Or.inl hinit2
          · rcases List.mem_singleton.mp hnew with rfl
            refine Or.inr ⟨?_, d, ?_, rfl⟩
            · intro hmem
              exact hc (contains_true_iff.mpr hmem)
            · exact List.find?_cons_of_pos _ (by simp [hgl])
        · rw [List.map_append] at hnot
          simp only [List.map_cons, List.map_nil] at hnot
          have hne : l.url ≠ v := by
            intro hcontra
            exact hnot (List.mem_append.mpr (Or.inr (by simp [hcontra])))
          have hni : l.url ∉ init.map Link.url := by
            intro hcontra
            exact hnot (List.mem_append.mpr (Or.inl hcontra))
          refine Or.inr ⟨hni, e, ?_, htext⟩
          rw [List.find?_cons_of_neg _ (by
            simp only [decide_eq_true_eq, hgl]
            intro hcontra
            injection hcontra with h2
            exact hne h2.symm), hfind]

/-! ## Facts about the modelled CPython sort -/

theorem pyInsert_perm (lt : α → α → Bool) (x : α) :
    ∀ l : List α, (pyInsert lt x l).Perm (x :: l) := by
  intro l
  induction l with
  | nil => simp [pyInsert]
  | cons y ys ih =>
    by_cases h : lt y x
    · simp only [pyInsert, h, if_true]
      exact (ih.cons y).trans (List.Perm.swap x y ys)
    · simp [pyInsert, h]

theorem mem_pyInsert {lt : α → α → Bool} {x z : α} {l : List α} :
    z ∈ pyInsert lt x l ↔ z = x ∨ z ∈ l := by
  rw [(pyInsert_perm lt x l).mem_iff]
  simp

theorem pySortAsc_perm (lt : α → α → Bool) :
    ∀ l : List α, (pySortAsc lt l).Perm l := by
  intro l
  induction l with
  | nil => simp [pySortAsc]
  | cons x xs ih =>
    exact (pyInsert_perm lt x (pySortAsc lt xs)).trans (ih.cons x)

theorem pySortDesc_perm (lt : α → α → Bool) (l : List α) :
    (pySortDesc lt l).Perm l := by
  unfold pySortDesc
  exact ((List.reverse_perm _).trans (pySortAsc_perm lt l.reverse)).trans (List.reverse_perm l)

theorem pyInsert_pairwise {lt : α → α → Bool} {x : α} {l : List α}
    (hA : ∀ b ∈ l, lt b x = true → lt x b = false)
    (hNT : ∀ b ∈ l, ∀ c ∈ l, lt b x = false → lt c b = false → lt c x = false)
    (hs : l.Pairwise (fun a b => lt b a = false)) :
    (pyInsert lt x l).Pairwise (fun a b => lt b a = false) := by
  induction l with
  | nil => simp [pyInsert]
  | cons y ys ih =>
    rcases List.pairwise_cons.mp hs with ⟨hy, hys⟩
    by_cases h : lt y x
    · simp only [pyInsert, h, if_true]
      refine List.pairwise_cons.mpr ⟨?_, ?_⟩
      · intro z hz
        rcases mem_pyInsert.mp hz with rfl | hz
        · exact hA y (List.mem_cons_self y ys) h
        · exact hy z hz
      · exact ih (fun b hb => hA b (List.mem_cons_of_mem y hb))
          (fun b hb c hc => hNT b (List.mem_cons_of_mem y hb) c (List.mem_cons_of_mem y hc))
          hys
    · simp only [pyInsert, h, if_false]
      refine List.pairwise_cons.mpr ⟨?_, hs⟩
      intro z hz
      rcases List.mem_cons.mp hz with rfl | hz
      · exact Bool.of_not_eq_true h
      · exact hNT y (List.mem_cons_self y ys) z (List.mem_cons_of_mem y hz)
          (Bool.of_not_eq_true h) (hy z hz)

theorem pySortAsc_pairwise {lt : α → α → Bool} {l : List α}
    (hA : ∀ a ∈ l, ∀ b ∈ l, lt a b = true → lt b a = false)
    (hNT : ∀ a ∈ l, ∀ b ∈ l, ∀ c ∈ l, lt b a = false → lt c b = false → lt c a = false) :
    (pySortAsc lt l).Pairwise (fun a b => lt b a = false) := by
  induction l with
  | nil => simp [pySortAsc]
  | cons x xs ih =>
    have hmem : ∀ b, b ∈ pySortAsc lt xs → b ∈ x :: xs := fun b hb =>
      List.mem_cons_of_mem x ((pySortAsc_perm lt xs).mem_iff.mp hb)
    have hx : x ∈ x :: xs := List.mem_cons_self x xs
    exact pyInsert_pairwise
      (fun b hb => hA b (hmem b hb) x hx)
      (fun b hb c hc => hNT x hx b (hmem b hb) c (hmem c hc))
      (ih (fun a ha b hb => hA a (List.mem_cons_of_mem x ha) b (List.mem_cons_of_mem x hb))
        (fun a ha b hb c hc => hNT a (List.mem_cons_of_mem x ha)
          b (List.mem_cons_of_mem x hb) c (List.mem_cons_of_mem x hc)))

theorem pySortDesc_pairwise {lt : α → α → Bool} {l : List α}
    (hA : ∀ a ∈ l, ∀ b ∈ l, lt a b = true → lt b a = false)
    (hNT : ∀ a ∈ l, ∀ b ∈ l, ∀ c ∈ l, lt b a = false → lt c b = false → lt c a = false) :
    (pySortDesc lt l).Pairwise (fun a b => lt a b = false) := by
  unfold pySortDesc
  rw [List.pairwise_reverse]
  have hA' : ∀ a ∈ l.reverse, ∀ b ∈ l.reverse, lt a b = true → lt b a = false := by
    intro a ha b hb
    exact hA a (List.mem_reverse.mp ha) b (List.mem_reverse.mp hb)
  have hNT' : ∀ a ∈ l.reverse, ∀ b ∈ l.reverse, ∀ c ∈ l.reverse,
      lt b a = false → lt c b = false → lt c a = false := by
    intro a ha b hb c hc
    exact hNT a (List.mem_reverse.mp ha) b (List.mem_reverse.mp hb) c (List.mem_reverse.mp hc)
  exact pySortAsc_pairwise hA' hNT'

/-! ## Exact-score arithmetic: the Boolean comparisons agree with the real score values -/

theorem normSq_nonneg (v : List ℚ) : 0 ≤ normSq v := by
  unfold normSq dot
  induction v with
  | nil => simp
  | cons x xs ih =>
    simpa using add_nonneg (mul_self_nonneg x) ih

theorem cosine_dsq_nonneg (q w : List ℚ) : 0 ≤ (cosine_similarity q w).dsq :=
  mul_nonneg (normSq_nonneg q) (normSq_nonneg w)

theorem scoreLtB_nan {a b : Score} (h : a.dsq = 0 ∨ b.dsq = 0) :
    scoreLtB a b = false := by
  unfold scoreLtB
  rw [if_pos h]

theorem scoreLtB_iff_val {a b : Score} (ha : 0 < a.dsq) (hb : 0 < b.dsq) :
    scoreLtB a b = true ↔ a.val < b.val := by
  have hda : (0 : ℝ) < (a.dsq : ℝ) := by exact_mod_cast ha
  have hdb : (0 : ℝ) < (b.dsq : ℝ) := by exact_mod_cast hb
  have hsa : 0 < Real.sqrt (a.dsq : ℝ) := Real.sqrt_pos.mpr hda
  have hsb : 0 < Real.sqrt (b.dsq : ℝ) := Real.sqrt_pos.mpr hdb
  have hval : a.val < b.val ↔
      (a.num : ℝ) * Real.sqrt (b.dsq : ℝ) < (b.num : ℝ) * Real.sqrt (a.dsq : ℝ) := by
    unfold Score.val
    rw [div_lt_div_iff₀ hsa hsb]
  have hsqb : Real.sqrt ((b.dsq : ℝ)) ^ 2 = (b.dsq : ℝ) := Real.sq_sqrt hdb.le
  have hsqa : Real.sqrt ((a.dsq : ℝ)) ^ 2 = (a.dsq : ℝ) := Real.sq_sqrt hda.le
  unfold scoreLtB
  rw [if_neg (by push_neg; exact ⟨ha.ne', hb.ne'⟩)]
  split_ifs with h1 h2 h3
  · simp only [true_iff]
    rw [hval]
    calc (a.num : ℝ) * Real.sqrt (b.dsq : ℝ)
        < 0 := mul_neg_of_neg_of_pos (by exact_mod_cast h1.1) hsb
      _ ≤ (b.num : ℝ) * Real.sqrt (a.dsq : ℝ) :=
          mul_nonneg (by exact_mod_cast h1.2) hsa.le
  · simp only [false_iff, hval, not_lt]
    calc (b.num : ℝ) * Real.sqrt (a.dsq : ℝ)
        ≤ 0 := mul_nonpos_of_nonpos_of_nonneg (by exact_mod_cast h2.2.le) hsa.le
      _ ≤ (a.num : ℝ) * Real.sqrt (b.dsq : ℝ) :=
          mul_nonneg (by exact_mod_cast h2.1) hsb.le
  · have hna : (0 : ℝ) ≤ (a.num : ℝ) := by exact_mod_cast h3.1
    have hnb : (0 : ℝ) ≤ (b.num : ℝ) := by exact_mod_cast h3.2
    rw [decide_eq_true_iff, hval]
    constructor
    · intro h
      have h' : ((a.num : ℝ)) ^ 2 * (b.dsq : ℝ) < ((b.num : ℝ)) ^ 2 * (a.dsq : ℝ) := by
        exact_mod_cast h
      have hsq : ((a.num : ℝ) * Real.sqrt (b.dsq : ℝ)) ^ 2
          < ((b.num : ℝ) * Real.sqrt (a.dsq : ℝ)) ^ 2 := by
        rw [mul_pow, mul_pow, hsqb, hsqa]
        exact h'
      exact lt_of_pow_lt_pow_left₀ 2 (mul_nonneg hnb hsa.le) hsq
    · intro h
      have hsq := pow_lt_pow_left₀ h (mul_nonneg hna hsb.le) (two_ne_zero)
      rw [mul_pow, mul_pow, hsqb, hsqa] at hsq
      exact_mod_cast hsq
  · have hnega : a.num < 0 := by
      by_contra hc
      push_neg at hc
      by_cases hcb : 0 ≤ b.num
      · exact h3 ⟨hc, hcb⟩
      · exact h2 ⟨hc, lt_of_not_ge hcb⟩
    have hnegb : b.num < 0 := by
      by_contra hc
      push_neg at hc
      exact h1 ⟨hnega, hc⟩
    have hna : ((a.num : ℝ)) < 0 := by exact_mod_cast hnega
    have hnb : ((b.num : ℝ)) < 0 := by exact_mod_cast hnegb
    rw [decide_eq_true_iff, hval]
    have hswap : (a.num : ℝ) * Real.sqrt (b.dsq : ℝ) < (b.num : ℝ) * Real.sqrt (a.dsq : ℝ)
        ↔ (-(b.num : ℝ)) * Real.sqrt (a.dsq : ℝ) < (-(a.num : ℝ)) * Real.sqrt (b.dsq : ℝ) := by
      constructor
      · intro h
        simpa using neg_lt_neg h
      · intro h
        have := neg_lt_neg h
        simpa using this
    rw [hswap]
    constructor
    · intro h
      have h' : ((b.num : ℝ)) ^ 2 * (a.dsq : ℝ) < ((a.num : ℝ)) ^ 2 * (b.dsq : ℝ) := by
        exact_mod_cast h
      have hsq : ((-(b.num : ℝ)) * Real.sqrt (a.dsq : ℝ)) ^ 2
          < ((-(a.num : ℝ)) * Real.sqrt (b.dsq : ℝ)) ^ 2 := by
        rw [mul_pow, mul_pow, hsqb, hsqa, neg_pow, neg_pow]
        simpa using h'
      exact lt_of_pow_lt_pow_left₀ 2
        (mul_nonneg (by linarith) hsb.le) hsq
    · intro h
      have hsq := pow_lt_pow_left₀ h (mul_nonneg (by linarith) hsa.le) (two_ne_zero)
      rw [mul_pow, mul_pow, hsqb, hsqa, neg_pow, neg_pow] at hsq
      have h' : ((b.num : ℝ)) ^ 2 * (a.dsq : ℝ) < ((a.num : ℝ)) ^ 2 * (b.dsq : ℝ) := by
        simpa using hsq
      exact_mod_cast h'

theorem scoreLtB_false_iff {a b : Score} (ha : 0 < a.dsq) (hb : 0 < b.dsq) :
    scoreLtB a b = false ↔ b.val ≤ a.val := by
  rw [← not_lt, ← scoreLtB_iff_val ha hb]
  cases h : scoreLtB a b <;> simp [h]

theorem scoreEqB_iff_val {a b : Score} (ha : 0 < a.dsq) (hb : 0 < b.dsq) :
    scoreEqB a b = true ↔ a.val = b.val := by
  have hda : (0 : ℝ) < (a.dsq : ℝ) := by exact_mod_cast ha
  have hdb : (0 : ℝ) < (b.dsq : ℝ) := by exact_mod_cast hb
  have hsa : 0 < Real.sqrt (a.dsq : ℝ) := Real.sqrt_pos.mpr hda
  have hsb : 0 < Real.sqrt (b.dsq : ℝ) := Real.sqrt_pos.mpr hdb
  have hsqb : Real.sqrt ((b.dsq : ℝ)) ^ 2 = (b.dsq : ℝ) := Real.sq_sqrt hdb.le
  have hsqa : Real.sqrt ((a.dsq : ℝ)) ^ 2 = (a.dsq : ℝ) := Real.sq_sqrt hda.le
  have hval : a.val = b.val ↔
      (a.num : ℝ) * Real.sqrt (b.dsq : ℝ) = (b.num : ℝ) * Real.sqrt (a.dsq : ℝ) := by
    unfold Score.val
    rw [div_eq_div_iff hsa.ne' hsb.ne']
  unfold scoreEqB
  simp only [Bool.and_eq_true, decide_eq_true_eq, beq_iff_eq, decide_eq_decide,
    ha.ne', hb.ne', ne_eq, not_false_eq_true, true_and]
  rw [hval]
  by_cases hna : 0 ≤ a.num <;> by_cases hnb : 0 ≤ b.num
  · have hra : (0 : ℝ) ≤ (a.num : ℝ) := by exact_mod_cast hna
    have hrb : (0 : ℝ) ≤ (b.num : ℝ) := by exact_mod_cast hnb
    simp only [iff_of_true hna hnb, true_and]
    constructor
    · intro h
      have h' : ((a.num : ℝ)) ^ 2 * (b.dsq : ℝ) = ((b.num : ℝ)) ^ 2 * (a.dsq : ℝ) := by
        exact_mod_cast h
      have hsq : ((a.num : ℝ) * Real.sqrt (b.dsq : ℝ)) ^ 2
          = ((b.num : ℝ) * Real.sqrt (a.dsq : ℝ)) ^ 2 := by
        rw [mul_pow, mul_pow, hsqb, hsqa]
        exact h'
      exact (sq_eq_sq₀ (mul_nonneg hra hsb.le) (mul_nonneg hrb hsa.le)).mp hsq
    · intro h
      have hsq : ((a.num : ℝ) * Real.sqrt (b.dsq : ℝ)) ^ 2
          = ((b.num : ℝ) * Real.sqrt (a.dsq : ℝ)) ^ 2 := by rw [h]
      rw [mul_pow, mul_pow, hsqb, hsqa] at hsq
      exact_mod_cast hsq
  · push_neg at hnb
    have hra : (0 : ℝ) ≤ (a.num : ℝ) := by exact_mod_cast hna
    have hrb : ((b.num : ℝ)) < 0 := by exact_mod_cast hnb
    constructor
    · intro h
      exact absurd (h.1.mp hna) hnb.not_le
    · intro h
      have hlt : (b.num : ℝ) * Real.sqrt (a.dsq : ℝ) < 0 := mul_neg_of_neg_of_pos hrb hsa
      have hge : 0 ≤ (a.num : ℝ) * Real.sqrt (b.dsq : ℝ) := mul_nonneg hra hsb.le
      rw [h] at hge
      exact absurd hge (not_le.mpr hlt)
  · push_neg at hna
    have hra : ((a.num : ℝ)) < 0 := by exact_mod_cast hna
    have hrb : (0 : ℝ) ≤ (b.num : ℝ) := by exact_mod_cast hnb
    constructor
    · intro h
      exact absurd (h.1.mpr hnb) hna.not_le
    · intro h
      have hlt : (a.num : ℝ) * Real.sqrt (b.dsq : ℝ) < 0 := mul_neg_of_neg_of_pos hra hsb
      have hge : 0 ≤ (b.num : ℝ) * Real.sqrt (a.dsq : ℝ) := mul_nonneg hrb hsa.le
      rw [← h] at hge
      exact absurd hge (not_le.mpr hlt)
  · push_neg at hna hnb
    have hra : ((a.num : ℝ)) < 0 := by exact_mod_cast hna
    have hrb : ((b.num : ℝ)) < 0 := by exact_mod_cast hnb
    simp only [iff_of_false hna.not_le hnb.not_le, true_and]
    constructor
    · intro h
      have h' : ((a.num : ℝ)) ^ 2 * (b.dsq : ℝ) = ((b.num : ℝ)) ^ 2 * (a.dsq : ℝ) := by
        exact_mod_cast h
      have hsq : ((-(a.num : ℝ)) * Real.sqrt (b.dsq : ℝ)) ^ 2
          = ((-(b.num : ℝ)) * Real.sqrt (a.dsq : ℝ)) ^ 2 := by
        rw [mul_pow, mul_pow, hsqb, hsqa, neg_pow, neg_pow]
        simpa using h'
      have hneg := (sq_eq_sq₀ (mul_nonneg (by linarith) hsb.le)
        (mul_nonneg (by linarith) hsa.le)).mp hsq
      have h2 : -((a.num : ℝ) * Real.sqrt (b.dsq : ℝ))
          = -((b.num : ℝ) * Real.sqrt (a.dsq : ℝ)) := by
        simpa [neg_mul] using hneg
      exact neg_injective h2
    · intro h
      have hsq : ((a.num : ℝ) * Real.sqrt (b.dsq : ℝ)) ^ 2
          = ((b.num : ℝ) * Real.sqrt (a.dsq : ℝ)) ^ 2 := by rw [h]
      rw [mul_pow, mul_pow, hsqb, hsqa] at hsq
      exact_mod_cast hsq

theorem pyInsert_filter_pos {lt : α → α → Bool} {p : α → Bool} {x : α} {l : List α}
    (hx : p x = true) (h : ∀ y ∈ l, p y = true → lt y x = false) :
    (pyInsert lt x l).filter p = x :: l.filter p := by
  induction l with
  | nil => simp [pyInsert, hx]
  | cons y ys ih =>
    by_cases hyx : lt y x
    · have hpy : p y = false := by
        cases hpy : p y
        · rfl
        · have := h y (List.mem_cons_self y ys) hpy
          rw [this] at hyx
          exact absurd hyx (by simp)
      simp only [pyInsert, hyx, if_true, List.filter_cons, hpy]
      simpa [hpy] using ih (fun z hz hpz => h z (List.mem_cons_of_mem y hz) hpz)
    · simp [pyInsert, hyx, List.filter_cons, hx]

theorem pyInsert_filter_neg {lt : α → α → Bool} {p : α → Bool} {x : α} {l : List α}
    (hx : p x = false) :
    (pyInsert lt x l).filter p = l.filter p := by
  induction l with
  | nil => simp [pyInsert, hx]
  | cons y ys ih =>
    by_cases hyx : lt y x
    · simp only [pyInsert, hyx, if_true, List.filter_cons]
      rw [ih]
    · simp [pyInsert, hyx, List.filter_cons, hx]

theorem pySortAsc_filter {lt : α → α → Bool} {p : α → Bool} {l : List α}
    (hties : ∀ a ∈ l, ∀ b ∈ l, p a = true → p b = true → lt a b = false) :
    (pySortAsc lt l).filter p = l.filter p := by
  induction l with
  | nil => simp [pySortAsc]
  | cons x xs ih =>
    have ihx := ih (fun a ha b hb => hties a (List.mem_cons_of_mem x ha) b (List.mem_cons_of_mem x hb))
    cases hx : p x
    · rw [show pySortAsc lt (x :: xs) = pyInsert lt x (pySortAsc lt xs) from rfl,
        pyInsert_filter_neg hx, ihx, List.filter_cons, hx]
      simp
    · rw [show pySortAsc lt (x :: xs) = pyInsert lt x (pySortAsc lt xs) from rfl,
        pyInsert_filter_pos hx ?_, ihx, List.filter_cons, hx]
      · simp
      · intro y hy hpy
        exact hties y (List.mem_cons_of_mem x ((pySortAsc_perm lt xs).mem_iff.mp hy))
          x (List.mem_cons_self x xs) hpy hx

theorem pySortDesc_filter {lt : α → α → Bool} {p : α → Bool} {l : List α}
    (hties : ∀ a ∈ l, ∀ b ∈ l, p a = true → p b = true → lt a b = false) :
    (pySortDesc lt l).filter p = l.filter p := by
  unfold pySortDesc
  rw [List.filter_reverse, pySortAsc_filter, List.filter_reverse, List.reverse_reverse]
  intro a ha b hb
  exact hties a (List.mem_reverse.mp ha) b (List.mem_reverse.mp hb)

/-! ## The claims -/

/-- C2: the link synthesizer is not total: a "discourse" record with no
`topic_title` raises `AttributeError` (because `slugify` is applied to `None`
before the `topic_id and post_number` guard), and a "course" record with no
`meta.source` raises `TypeError` in `os.path.basename`; records with an
unrecognized or missing tag, or a discourse record missing only the ids, do
fall back to the default URL.  The first two conjuncts exhibit the failing
inputs on which the code contradicts the specification's never-raise rule. -/
theorem generate_link_missing_fields_raises :
    generate_link ⟨"t".toList, [], some "discourse".toList, ⟨some 5, some 2, none, none⟩⟩
        = .error .attributeError
    ∧ generate_link ⟨"t".toList, [], some "course".toList, ⟨none, none, none, none⟩⟩
        = .error .typeError
    ∧ generate_link ⟨"t".toList, [], some "post".toList, ⟨some 5, some 2, some "x".toList, none⟩⟩
        = .ok defaultUrl
    ∧ generate_link ⟨"t".toList, [], none, ⟨none, none, none, none⟩⟩ = .ok defaultUrl
    ∧ generate_link ⟨"t".toList, [], some "discourse".toList, ⟨none, some 2, some "x".toList, none⟩⟩
        = .ok defaultUrl := by
  refine ⟨rfl, rfl, by decide, rfl, ?_⟩
  simp [generate_link, truthy]

/-- C5: `slugify` computes exactly the specified pipeline: lower-case, remove
every character outside `[a-z0-9\s-]`, replace each maximal run of whitespace
and/or hyphens with a single hyphen, and remove leading and trailing hyphens
(`specSlugify` renders that description as joining the maximal kept
non-separator runs with single hyphens). -/
theorem slugify_matches_spec (s : List Char) : slugify s = specSlugify s :=
  slugify_eq_specSlugify_all s

/-- C7: slugification is idempotent: slugifying an already-slugified string
returns it unchanged. -/
theorem slugify_idempotent (s : List Char) : slugify (slugify s) = slugify s :=
  slugify_idempotent_all s

/-- C9: neither ranking nor link synthesis writes to the store or the record:
run over an explicit state, both computations return the state they were
given, and their results are pure functions of the inputs. -/
theorem rank_and_synthesize_pure :
    ∀ (q : List ℚ) (k : Nat) (store : List Doc) (d : Doc),
      (find_top_k_similar_st q k).run store = (find_top_k_similar q store k, store)
      ∧ generate_link_st.run d = (generate_link d, d) :=
  fun _ _ _ _ => ⟨rfl, rfl⟩

/-- C1 counterexample: in the store `[docZero, docUnit]` with query `[1, 0]`,
the zero-norm record `docZero` receives the NaN score, and the ranked output
is `[docZero, docUnit]`: the NaN record comes first, not last.  (CPython's
sort with `reverse=True` reverses, sorts ascending, reverses; on the reversed
two-element list the single comparison `1.0 < nan` is false, so nothing
moves.) -/
theorem zero_norm_record_not_sorted_last :
    ¬ nanRecordsLast [1, 0] [docZero, docUnit] 2 := by
  have hout : find_top_k_similar [1, 0] [docZero, docUnit] 2 = [docZero, docUnit] := by
    simp [find_top_k_similar, scoresList, pySortDesc, pySortAsc, pyInsert, entryLt, scoreLtB,
      cosine_similarity, dot, normSq, docZero, docUnit]
  intro h
  unfold nanRecordsLast at h
  rw [hout] at h
  have h01 := h ⟨0, by norm_num⟩ ⟨1, by norm_num⟩
  simp only [List.get] at h01
  have := h01 (by norm_num [docZero, normSq, dot]) (by norm_num [docUnit, normSq, dot])
  omega

/-- C1 (amended): ranking never fails and never drops a record — the scored
collection contains every store record (zero-norm records receive the NaN
score, `dsq = 0`), and once `k` covers the store every record, zero-norm ones
included, appears in the ranked output; but such records are not guaranteed
to be placed after the defined-score records (see the counterexample). -/
theorem ranking_never_drops_records :
    ∀ (q : List ℚ) (docs : List Doc),
      (scoresList q docs).map Prod.snd = docs
      ∧ (∀ d ∈ docs, normSq d.embedding = 0 → (cosine_similarity q d.embedding).dsq = 0)
      ∧ (∀ k, docs.length ≤ k → ∀ d ∈ docs, d ∈ find_top_k_similar q docs k) := by
  intro q docs
  refine ⟨?_, ?_, ?_⟩
  · rw [scoresList, List.map_map]
    exact List.map_id'' (fun x => rfl) docs
  · intro d _ hz
    simp [cosine_similarity, hz]
  · intro k hk d hd
    unfold find_top_k_similar
    have hlen : (pySortDesc entryLt (scoresList q docs)).length = docs.length := by
      rw [(pySortDesc_perm entryLt (scoresList q docs)).length_eq]
      simp [scoresList]
    rw [List.take_of_length_le (by rw [hlen]; exact hk)]
    have hperm : ((pySortDesc entryLt (scoresList q docs)).map Prod.snd).Perm docs := by
      have h1 := (pySortDesc_perm entryLt (scoresList q docs)).map Prod.snd
      have hmapid : List.map (Prod.snd ∘ fun d => (cosine_similarity q d.embedding, d)) docs
          = docs := List.map_id'' (fun _ => rfl) docs
      rw [scoresList, List.map_map, hmapid] at h1
      exact h1
    exact hperm.mem_iff.mpr hd

/-- C1 witness: with `k = 2` covering the two-record store, the zero-norm
record is present in the ranked output. -/
theorem ranking_never_drops_records_witness :
    [docZero, docUnit].length ≤ 2
    ∧ docZero ∈ find_top_k_similar [1, 0] [docZero, docUnit] 2 :=
  ⟨by decide,
    (ranking_never_drops_records [1, 0] [docZero, docUnit]).2.2 2 (by decide)
      docZero (by simp)⟩

theorem scoresList_mem_shape {q : List ℚ} {docs : List Doc} {e : Score × Doc}
    (h : e ∈ scoresList q docs) :
    e.1 = cosine_similarity q e.2.embedding ∧ e.2 ∈ docs := by
  rcases List.mem_map.mp h with ⟨d, hd, rfl⟩
  exact ⟨rfl, hd⟩

theorem scoresList_dsq_pos {q : List ℚ} {docs : List Doc}
    (hq : normSq q ≠ 0) (hnn : ∀ d ∈ docs, normSq d.embedding ≠ 0)
    {e : Score × Doc} (h : e ∈ scoresList q docs) : 0 < e.1.dsq := by
  rcases scoresList_mem_shape h with ⟨h1, h2⟩
  rw [h1]
  exact mul_pos (lt_of_le_of_ne (normSq_nonneg q) (Ne.symm hq))
    (lt_of_le_of_ne (normSq_nonneg _) (Ne.symm (hnn _ h2)))

/-- C3 counterexample: with the zero-norm record first in the store, the
ranked output's score sequence is `[nan, 1.0]`, which is not non-increasing
(the real value attached to the NaN score is the junk value `0`, and under
Python float comparison `nan ≥ 1.0` is false as well). -/
theorem rank_scores_not_nonincreasing_with_zero_norm :
    ¬ (((find_top_k_similar [1, 0] [docZero, docUnit] 2).map
        (fun d => (cosine_similarity [1, 0] d.embedding).val)).Pairwise (· ≥ ·)) := by
  have hout : find_top_k_similar [1, 0] [docZero, docUnit] 2 = [docZero, docUnit] := by
    simp [find_top_k_similar, scoresList, pySortDesc, pySortAsc, pyInsert, entryLt, scoreLtB,
      cosine_similarity, dot, normSq, docZero, docUnit]
  rw [hout]
  intro h
  rcases List.pairwise_cons.mp h with ⟨h1, _⟩
  have h2 : (cosine_similarity [1, 0] docZero.embedding).val
      ≥ (cosine_similarity [1, 0] docUnit.embedding).val :=
    h1 _ (List.mem_cons_self _ _)
  rw [show (cosine_similarity [1, 0] docZero.embedding).val = 0 from by
      norm_num [cosine_similarity, Score.val, docZero, normSq, dot],
    show (cosine_similarity [1, 0] docUnit.embedding).val = 1 from by
      norm_num [cosine_similarity, Score.val, docUnit, normSq, dot, Real.sqrt_one]] at h2
  norm_num at h2

/-- C3 (amended): `rank(v, store, k)` always returns exactly
`min(k, |store|)` results; when the query vector and every record's embedding
have nonzero norm (so no NaN score arises), the attached similarity scores are
non-increasing.  The counterexample shows the monotonicity clause fails as
soon as a zero-norm (NaN-scored) record is present. -/
theorem rank_returns_min_k_sorted :
    ∀ (q : List ℚ) (docs : List Doc) (k : Nat),
      (find_top_k_similar q docs k).length = min k docs.length
      ∧ (normSq q ≠ 0 → (∀ d ∈ docs, normSq d.embedding ≠ 0) →
          ((find_top_k_similar q docs k).map
            (fun d => (cosine_similarity q d.embedding).val)).Pairwise (· ≥ ·)) := by
  intro q docs k
  constructor
  · unfold find_top_k_similar
    rw [List.length_map, List.length_take, (pySortDesc_perm _ _).length_eq]
    simp [scoresList]
  · intro hq hnn
    have hpos : ∀ e ∈ scoresList q docs, 0 < e.1.dsq :=
      fun e he => scoresList_dsq_pos hq hnn he
    have hA : ∀ a ∈ scoresList q docs, ∀ b ∈ scoresList q docs,
        entryLt a b = true → entryLt b a = false := by
      intro a ha b hb hab
      unfold entryLt at hab ⊢
      rw [scoreLtB_iff_val (hpos a ha) (hpos b hb)] at hab
      rw [scoreLtB_false_iff (hpos b hb) (hpos a ha)]
      exact hab.le
    have hNT : ∀ a ∈ scoresList q docs, ∀ b ∈ scoresList q docs, ∀ c ∈ scoresList q docs,
        entryLt b a = false → entryLt c b = false → entryLt c a = false := by
      intro a ha b hb c hc h1 h2
      unfold entryLt at h1 h2 ⊢
      rw [scoreLtB_false_iff (hpos b hb) (hpos a ha)] at h1
      rw [scoreLtB_false_iff (hpos c hc) (hpos b hb)] at h2
      rw [scoreLtB_false_iff (hpos c hc) (hpos a ha)]
      exact le_trans h1 h2
    have hsorted := pySortDesc_pairwise hA hNT
    have hsortmem : ∀ e, e ∈ pySortDesc entryLt (scoresList q docs) → e ∈ scoresList q docs :=
      fun e he => (pySortDesc_perm _ _).mem_iff.mp he
    have hvals : (pySortDesc entryLt (scoresList q docs)).Pairwise
        (fun a b => (cosine_similarity q a.2.embedding).val
          ≥ (cosine_similarity q b.2.embedding).val) := by
      refine hsorted.imp_of_mem ?_
      intro a b ha hb hab
      have hsa := scoresList_mem_shape (hsortmem a ha)
      have hsb := scoresList_mem_shape (hsortmem b hb)
      unfold entryLt at hab
      rw [scoreLtB_false_iff (hpos _ (hsortmem a ha)) (hpos _ (hsortmem b hb))] at hab
      rw [← hsa.1, ← hsb.1]
      exact hab
    have htake := hvals.sublist (List.take_sublist k _)
    unfold find_top_k_similar
    rw [List.pairwise_map, List.pairwise_map]
    exact htake

/-- C3 witness: on the NaN-free store `[docUnit, docOrtho]` with query
`[1, 0]` and `k = 2`, both hypotheses hold and the theorem applies. -/
theorem rank_returns_min_k_sorted_witness :
    normSq [1, 0] ≠ 0
    ∧ (∀ d ∈ [docUnit, docOrtho], normSq d.embedding ≠ 0)
    ∧ ((find_top_k_similar [1, 0] [docUnit, docOrtho] 2).map
        (fun d => (cosine_similarity [1, 0] d.embedding).val)).Pairwise (· ≥ ·) :=
  ⟨by norm_num [normSq, dot],
   by
     simp only [List.forall_mem_cons, List.forall_mem_nil, and_true]
     constructor <;> norm_num [docUnit, docOrtho, normSq, dot],
   (rank_returns_min_k_sorted [1, 0] [docUnit, docOrtho] 2).2
     (by norm_num [normSq, dot])
     (by
       simp only [List.forall_mem_cons, List.forall_mem_nil, and_true]
       constructor <;> norm_num [docUnit, docOrtho, normSq, dot])⟩

theorem scoreEqB_dsq_ne {a b : Score} (h : scoreEqB a b = true) :
    a.dsq ≠ 0 ∧ b.dsq ≠ 0 := by
  unfold scoreEqB at h
  simp only [Bool.and_eq_true, decide_eq_true_eq] at h
  exact ⟨by tauto, by tauto⟩

/-- C4, amended: ranking is stable provided the query vector and every
record's embedding have nonzero norm (so no NaN score arises).  For any score
value `s` (scores always have a non-negative squared denominator) and any such
store, the records whose score equals `s` appear in the fully sorted sequence
in exactly their store order, and in the `k`-truncated sequence as a prefix of
that store-order subsequence — two records with exactly equal scores keep
their relative store order in the ranked output.  The claim's unrestricted
form is false: with a zero-norm (NaN-scored) record present, CPython's binary
insertion sort can invert equal-scored records, see
`rank_ties_reordered_beside_nan`. -/
theorem rank_stable_on_equal_scores :
    ∀ (q : List ℚ) (docs : List Doc) (s : Score) (k : Nat),
      normSq q ≠ 0 → (∀ d ∈ docs, normSq d.embedding ≠ 0) → 0 ≤ s.dsq →
      ((pySortDesc entryLt (scoresList q docs)).filter (fun e => scoreEqB e.1 s)
          = (scoresList q docs).filter (fun e => scoreEqB e.1 s))
      ∧ ∃ t, ((pySortDesc entryLt (scoresList q docs)).take k).filter
            (fun e => scoreEqB e.1 s) ++ t
          = (scoresList q docs).filter (fun e => scoreEqB e.1 s) := by
  intro q docs s k hq hnn hs
  have hpos : ∀ e ∈ scoresList q docs, 0 < e.1.dsq :=
    fun e he => scoresList_dsq_pos hq hnn he
  have hties : ∀ a ∈ scoresList q docs, ∀ b ∈ scoresList q docs,
      (fun e => scoreEqB e.1 s) a = true → (fun e => scoreEqB e.1 s) b = true →
      entryLt a b = false := by
    intro a ha b hb hpa hpb
    have hsd : 0 < s.dsq :=
      lt_of_le_of_ne hs (Ne.symm (scoreEqB_dsq_ne hpa).2)
    have hva := (scoreEqB_iff_val (hpos a ha) hsd).mp hpa
    have hvb := (scoreEqB_iff_val (hpos b hb) hsd).mp hpb
    unfold entryLt
    rw [scoreLtB_false_iff (hpos a ha) (hpos b hb), hva, hvb]
  constructor
  · exact pySortDesc_filter hties
  · refine ⟨((pySortDesc entryLt (scoresList q docs)).drop k).filter
      (fun e => scoreEqB e.1 s), ?_⟩
    rw [← List.filter_append, List.take_append_drop, pySortDesc_filter hties]

/-- C4 witness: `docTwo` (embedding `[2, 0]`) and `docUnit` (embedding
`[1, 0]`) both score exactly `1` against the query `[1, 0]`; the stability
theorem applies to this three-record store. -/
theorem rank_stable_on_equal_scores_witness :
    normSq [1, 0] ≠ 0
    ∧ (∀ d ∈ [docTwo, docUnit, docOrtho], normSq d.embedding ≠ 0)
    ∧ (0 : ℚ) ≤ (⟨1, 1⟩ : Score).dsq
    ∧ ((pySortDesc entryLt (scoresList [1, 0] [docTwo, docUnit, docOrtho])).filter
          (fun e => scoreEqB e.1 ⟨1, 1⟩)
        = (scoresList [1, 0] [docTwo, docUnit, docOrtho]).filter
          (fun e => scoreEqB e.1 ⟨1, 1⟩)) :=
  ⟨by norm_num [normSq, dot],
   by
     simp only [List.forall_mem_cons, List.forall_mem_nil, and_true]
     refine ⟨?_, ?_, ?_⟩ <;> norm_num [docTwo, docUnit, docOrtho, normSq, dot],
   by norm_num,
   (rank_stable_on_equal_scores [1, 0] [docTwo, docUnit, docOrtho] ⟨1, 1⟩ 2
     (by norm_num [normSq, dot])
     (by
       simp only [List.forall_mem_cons, List.forall_mem_nil, and_true]
       refine ⟨?_, ?_, ?_⟩ <;> norm_num [docTwo, docUnit, docOrtho, normSq, dot])
     (by norm_num)).1⟩

/-- C10: every ranked result is a store record, the ranked output is a
sub-permutation of the store (no record occurs more often in the output than
in the store), and once `k` covers the store the output is a permutation of
the entire store. -/
theorem rank_output_subpermutation :
    ∀ (q : List ℚ) (docs : List Doc) (k : Nat),
      (∀ d ∈ find_top_k_similar q docs k, d ∈ docs)
      ∧ (find_top_k_similar q docs k).Subperm docs
      ∧ (docs.length ≤ k → (find_top_k_similar q docs k).Perm docs) := by
  intro q docs k
  have hperm : ((pySortDesc entryLt (scoresList q docs)).map Prod.snd).Perm docs := by
    have h1 := (pySortDesc_perm entryLt (scoresList q docs)).map Prod.snd
    have hmapid : List.map (Prod.snd ∘ fun d => (cosine_similarity q d.embedding, d)) docs
        = docs := List.map_id'' (fun _ => rfl) docs
    rw [scoresList, List.map_map, hmapid] at h1
    exact h1
  have hsub : (find_top_k_similar q docs k).Sublist
      ((pySortDesc entryLt (scoresList q docs)).map Prod.snd) := by
    unfold find_top_k_similar
    exact (List.take_sublist k _).map Prod.snd
  have hsubperm : (find_top_k_similar q docs k).Subperm docs :=
    hsub.subperm.trans hperm.subperm
  refine ⟨fun d hd => hsubperm.subset hd, hsubperm, ?_⟩
  intro hk
  unfold find_top_k_similar
  rw [List.take_of_length_le (by rw [(pySortDesc_perm _ _).length_eq]; simpa [scoresList] using hk)]
  exact hperm

/-- C10 witness: with `k = 5` covering the two-record store, the ranked
output is a permutation of the whole store. -/
theorem rank_output_subpermutation_witness :
    [docUnit, docOrtho].length ≤ 5
    ∧ (find_top_k_similar [1, 0] [docUnit, docOrtho] 5).Perm [docUnit, docOrtho] :=
  ⟨by decide,
   (rank_output_subpermutation [1, 0] [docUnit, docOrtho] 5).2.2 (by decide)⟩

/-- C8: the similarity function computes exactly the cosine similarity — the
real value of the returned score is the dot product divided by the product of
the Euclidean norms; identical non-zero vectors score `1`, orthogonal
non-zero vectors score `0`. -/
theorem cosine_similarity_spec :
    ∀ v w : List ℚ,
      (cosine_similarity v w).val = (dot v w : ℝ) / (euclideanNorm v * euclideanNorm w)
      ∧ (normSq v ≠ 0 → (cosine_similarity v v).val = 1)
      ∧ (normSq v ≠ 0 → normSq w ≠ 0 → dot v w = 0 → (cosine_similarity v w).val = 0) := by
  intro v w
  have hnv : (0 : ℝ) ≤ ((normSq v : ℚ) : ℝ) := by exact_mod_cast normSq_nonneg v
  refine ⟨?_, ?_, ?_⟩
  · simp only [cosine_similarity, Score.val, euclideanNorm]
    have h0 : ((normSq v * normSq w : ℚ) : ℝ) = ((normSq v : ℚ) : ℝ) * ((normSq w : ℚ) : ℝ) := by
      push_cast
      ring
    rw [h0, Real.sqrt_mul hnv]
  · intro hv
    simp only [cosine_similarity, Score.val]
    have h0 : ((normSq v * normSq v : ℚ) : ℝ) = ((normSq v : ℚ) : ℝ) * ((normSq v : ℚ) : ℝ) := by
      push_cast
      ring
    rw [h0, Real.sqrt_mul_self hnv]
    have hne : ((normSq v : ℚ) : ℝ) ≠ 0 := by exact_mod_cast hv
    rw [show dot v v = normSq v from rfl]
    exact div_self hne
  · intro _ _ hd
    simp only [cosine_similarity, Score.val, hd]
    norm_num

/-- C8 witness: for the concrete vectors `[1, 0]` and `[0, 1]` the
hypotheses hold, identical vectors score `1` and orthogonal vectors score
`0`. -/
theorem cosine_similarity_spec_witness :
    normSq [1, 0] ≠ 0 ∧ normSq [0, 1] ≠ 0 ∧ dot [1, 0] [0, 1] = 0
    ∧ (cosine_similarity [1, 0] [1, 0]).val = 1
    ∧ (cosine_similarity [1, 0] [0, 1]).val = 0 :=
  ⟨by norm_num [normSq, dot],
   by norm_num [normSq, dot],
   by norm_num [dot],
   (cosine_similarity_spec [1, 0] [1, 0]).2.1 (by norm_num [normSq, dot]),
   (cosine_similarity_spec [1, 0] [0, 1]).2.2 (by norm_num [normSq, dot])
     (by norm_num [normSq, dot]) (by norm_num [dot])⟩

/-- C6: building the citation list from ranked results deduplicates by URL:
the resulting URLs are pairwise distinct, a URL appears exactly when some
ranked record synthesizes it, and each entry's display text is the text of
the first record with that URL, truncated to 80 characters with `"..."`
appended exactly when the text is longer than 80 characters. -/
theorem citation_list_dedup (docs : List Doc) (links : List Link)
    (h : buildLinks docs = .ok links) :
    (links.map Link.url).Nodup
    ∧ (∀ u : List Char, u ∈ links.map Link.url ↔ ∃ d ∈ docs, generate_link d = .ok u)
    ∧ (∀ l ∈ links, ∃ d : Doc,
        docs.find? (fun e => decide (generate_link e = .ok l.url)) = some d
        ∧ l.text = d.text.take 80 ++ (if 80 < d.text.length then "...".toList else [])) := by
  unfold buildLinks at h
  refine ⟨buildLinksFrom_nodup docs [] links (by simp) h, ?_, ?_⟩
  · intro u
    rw [buildLinksFrom_mem_url docs [] links h u]
    simp
  · intro l hl
    rcases buildLinksFrom_text docs [] links h l hl with hmem | ⟨_, d, hfind, htext⟩
    · simp at hmem
    · exact ⟨d, hfind, htext⟩

/-- C6 witness: `docZero` and `docIntroDup` synthesize the same URL, so the
citation list built from `[docZero, docIntroDup, docLong]` has exactly two
entries: the shared URL carries the first record's text, and `docLong`'s
85-character text is truncated to 80 characters with an ellipsis. -/
theorem citation_list_dedup_witness :
    buildLinks [docZero, docIntroDup, docLong]
      = .ok [⟨"https://tds.s-anand.net/#/intro".toList, "A".toList⟩,
             ⟨"https://discourse.onlinedegree.iitm.ac.in/t/t/1/1".toList,
              List.replicate 80 'a' ++ "...".toList⟩]
    ∧ ((([⟨"https://tds.s-anand.net/#/intro".toList, "A".toList⟩,
          ⟨"https://discourse.onlinedegree.iitm.ac.in/t/t/1/1".toList,
           List.replicate 80 'a' ++ "...".toList⟩] : List Link).map Link.url).Nodup
      ∧ (∀ u : List Char,
          u ∈ ([⟨"https://tds.s-anand.net/#/intro".toList, "A".toList⟩,
                ⟨"https://discourse.onlinedegree.iitm.ac.in/t/t/1/1".toList,
                 List.replicate 80 'a' ++ "...".toList⟩] : List Link).map Link.url
          ↔ ∃ d ∈ [docZero, docIntroDup, docLong], generate_link d = .ok u)
      ∧ (∀ l ∈ ([⟨"https://tds.s-anand.net/#/intro".toList, "A".toList⟩,
                 ⟨"https://discourse.onlinedegree.iitm.ac.in/t/t/1/1".toList,
                  List.replicate 80 'a' ++ "...".toList⟩] : List Link), ∃ d : Doc,
          [docZero, docIntroDup, docLong].find?
              (fun e => decide (generate_link e = .ok l.url)) = some d
          ∧ l.text = d.text.take 80
              ++ (if 80 < d.text.length then "...".toList else []))) := by
  have h1 : generate_link docZero = .ok "https://tds.s-anand.net/#/intro".toList := by
    have ha : basename "week1/intro.md".toList = "intro.md".toList := by decide
    have hb : splitextStem "intro.md".toList = "intro".toList := by decide
    have hc : ("intro".toList.splitOn '\\').getLastD ([] : List Char) = "intro".toList := by
      decide
    simp only [docZero, generate_link, String.toList]
    rw [if_neg (by decide), if_pos (by decide)]
    simp only [String.toList] at ha hb hc
    rw [ha, hb, hc]
    simp [slugify, collapseSeps, stripHyphens, keepChar, isSep, isPySpace, pyLower, tokens]
  have h2 : generate_link docIntroDup = .ok "https://tds.s-anand.net/#/intro".toList := by
    have ha : basename "week4/intro.md".toList = "intro.md".toList := by decide
    have hb : splitextStem "intro.md".toList = "intro".toList := by decide
    have hc : ("intro".toList.splitOn '\\').getLastD ([] : List Char) = "intro".toList := by
      decide
    simp only [docIntroDup, generate_link, String.toList]
    rw [if_neg (by decide), if_pos (by decide)]
    simp only [String.toList] at ha hb hc
    rw [ha, hb, hc]
    simp [slugify, collapseSeps, stripHyphens, keepChar, isSep, isPySpace, pyLower, tokens]
  have h3 : generate_link docLong
      = .ok "https://discourse.onlinedegree.iitm.ac.in/t/t/1/1".toList := by
    simp [docLong, generate_link, truthy, slugify, collapseSeps, stripHyphens, keepChar,
      isSep, isPySpace, pyLower, String.toList, pyStr, defaultUrl, tokens]
    decide
  have hb : buildLinks [docZero, docIntroDup, docLong]
      = .ok [⟨"https://tds.s-anand.net/#/intro".toList, "A".toList⟩,
             ⟨"https://discourse.onlinedegree.iitm.ac.in/t/t/1/1".toList,
              List.replicate 80 'a' ++ "...".toList⟩] := by
    unfold buildLinks
    rw [buildLinksFrom_cons, addDocLink_ok h1, if_neg (by decide), ok_bind,
      buildLinksFrom_cons, addDocLink_ok h2, if_pos (by decide), ok_bind,
      buildLinksFrom_cons, addDocLink_ok h3, if_neg (by decide), ok_bind,
      buildLinksFrom_nil]
    exact congrArg Except.ok (by
      set_option maxRecDepth 10000 in decide)
  exact ⟨hb, citation_list_dedup [docZero, docIntroDup, docLong] _ hb⟩

/-- C4 counterexample: on the seven-record store `storeC4` (five records
scoring `0.0`, one zero-norm record scoring NaN, one scoring `1.0`) with
query `[1, 0]`, CPython's sort — count_run followed by binary insertion, the
exact algorithm for lists shorter than 64 — produces the ranked output
`[c4r1, c4r2, c4r6, c4r0, c4r3, c4r4, c4r5]` (verified against CPython):
the equal-scored records `c4r0` and `c4r1` come out in inverted order, so
ranking is not stable on stores containing a NaN-scored record. -/
theorem rank_ties_reordered_beside_nan :
    ¬ rankedTiesKeepStoreOrder [1, 0] storeC4 7 := by
  have hout : find_top_k_similar_cpython [1, 0] storeC4 7
      = [c4r1, c4r2, c4r6, c4r0, c4r3, c4r4, c4r5] := by
    simp [find_top_k_similar_cpython, pyListSortDesc, pyListSortAsc, ascRunSplit,
      descRunSplit, binInsertAll, pyBinInsertIdx, bsLoop, insertAtIdx, scoresList,
      entryLt, scoreLtB, cosine_similarity, dot, normSq, storeC4,
      c4r0, c4r1, c4r2, c4r3, c4r4, c4r5, c4r6]
  intro h
  unfold rankedTiesKeepStoreOrder at h
  rw [hout] at h
  have heq : scoreEqB
      (cosine_similarity [1, 0] (storeC4.get ⟨0, by norm_num [storeC4]⟩).embedding)
      (cosine_similarity [1, 0] (storeC4.get ⟨1, by norm_num [storeC4]⟩).embedding)
      = true := by
    show scoreEqB (cosine_similarity [1, 0] c4r0.embedding)
      (cosine_similarity [1, 0] c4r1.embedding) = true
    norm_num [c4r0, c4r1, cosine_similarity, dot, normSq, scoreEqB]
  have hcontra := h ⟨0, by norm_num [storeC4]⟩ ⟨1, by norm_num [storeC4]⟩
    (by norm_num) heq ⟨3, by norm_num⟩ ⟨0, by norm_num⟩ rfl rfl
  simp at hcontra
